import Mathlib

/-!
# Verification of the live-caption-translator streaming pipeline

A shallow embedding, in Lean 4, of the core of `app/main.py`, `app/asr.py`
and `app/session.py` of the `live-caption-translator` repository:

* the text normalizer `clean_en` and the rounding helper `r2`;
* the `CaptionBuffer` min/max windowing policy (`add`/`ready`/`flush`);
* the websocket ingestion loop `ws_stream` (pending-fragment promotion,
  global timeline cursor, window buffering) as a step function on an
  explicit state;
* the HTTP chunk ingestion timeline (`SESSION_TIMELINE` in
  `http_upload_chunk`);
* the `EventBroker` publish/subscribe hub as a trace semantics;
* the input guard of `transcribe_chunk` (`app/asr.py`), with the external
  transcription API abstracted as parameters;
* the plain-text transcript renderer `SessionStore.to_txt`
  (`app/session.py`), together with a re-parser modelled from the spec.

Python strings are modelled as `List Char`, floats as `ℚ`.
-/

/-- Python strings are modelled as lists of characters. -/
abbrev Str := List Char

/-- The whitespace characters recognised by Python's `str.strip` and the
regex class `\s` (space, tab, newline, carriage return, vertical tab,
form feed). -/
def isPyWs (c : Char) : Bool :=
  c = ' ' || c = '\t' || c = '\n' || c = '\r' || c.toNat = 11 || c.toNat = 12

/-- Python `s.lstrip()`: drop leading whitespace. -/
def stripL (s : Str) : Str := s.dropWhile isPyWs

/-- Python `s.rstrip()`: drop trailing whitespace. -/
def stripR (s : Str) : Str := (s.reverse.dropWhile isPyWs).reverse

/-- Python `s.strip()`: drop leading and trailing whitespace. -/
def pyStrip (s : Str) : Str := stripR (stripL s)

/-- Model of `re.sub(r"\s+", " ", s)`: collapse every maximal run of whitespace
characters into a single space. -/
def collapseWs : Str → Str
  | [] => []
  | [c] => if isPyWs c then [' '] else [c]
  | c :: d :: rest =>
    if isPyWs c && isPyWs d then collapseWs (d :: rest)
    else (if isPyWs c then ' ' else c) :: collapseWs (d :: rest)

/-- Python `s.endswith((".", "?", "!"))` — `CaptionBuffer._ends_with_punct` in
`app/main.py`. -/
def endsPunct (s : Str) : Bool :=
  match s.getLast? with
  | some '.' => true
  | some '?' => true
  | some '!' => true
  | _ => false

/-- The length of the trailing run of dots of `s` (used to model the regex
`\.{3,}$`). -/
def trailDots (s : Str) : ℕ := (s.reverse.takeWhile (fun c => c = '.')).length

/-- Model of `re.sub(r"\.{3,}$", ".", s)`: a trailing run of three or more dots is
replaced by a single period. -/
def squashDots (s : Str) : Str :=
  if 3 ≤ trailDots s then (s.reverse.dropWhile (fun c => c = '.')).reverse ++ ['.']
  else s

/-- Step 3 of `clean_en` in `app/main.py`: if the string is longer than 40
characters and does not end in `.`, `?` or `!`, append a period. -/
def dotIfLong (s : Str) : Str :=
  if 40 < s.length ∧ ¬ endsPunct s then s ++ ['.'] else s

/-- The normalizer `clean_en` (`app/main.py`, lines 59–66): empty input is returned as is;
otherwise whitespace runs are collapsed and the string is trimmed, a
trailing run of three or more dots becomes a single period, and a long
result without terminal punctuation gets a period appended. -/
def clean_en (s : Str) : Str :=
  if s = [] then s else dotIfLong (squashDots (pyStrip (collapseWs s)))

/-- The helper `r2` (`app/main.py`, line 68): `float(f"{x:.2f}")`, i.e. rounding to two
decimal places, modelled on `ℚ`. -/
def r2 (x : ℚ) : ℚ := (round (x * 100) : ℚ) / 100

/-! ## CaptionBuffer (`app/main.py`, lines 80–125) -/

/-- The state of a `CaptionBuffer`: configuration (`min_window`,
`max_window`, `min_chars`) plus the mutable fields set by `reset`
(`en_parts`, `t0`, `t1`, `accum_sec`).  `t0`/`t1` are `Option` because the
Python fields hold `None` until the first fragment is added. -/
structure CaptionBuffer where
  min_window : ℚ
  max_window : ℚ
  min_chars : ℕ
  en_parts : List Str
  t0 : Option ℚ
  t1 : Option ℚ
  accum_sec : ℚ
deriving DecidableEq

/-- Method `CaptionBuffer.reset`: clear the accumulated state. -/
def CaptionBuffer.reset (b : CaptionBuffer) : CaptionBuffer :=
  { b with en_parts := [], t0 := none, t1 := none, accum_sec := 0 }

/-- The `CaptionBuffer` constructor: store the configuration and `reset`. -/
def mkBuffer (minW maxW : ℚ) (minChars : ℕ) : CaptionBuffer :=
  CaptionBuffer.reset ⟨minW, maxW, minChars, [], none, none, 0⟩

/-- Method `CaptionBuffer.add(seg_t0, seg_t1, text_en)`: empty text returns at
once; otherwise `t0` is set if still `None`, `t1` is overwritten,
`max(0.0, seg_t1 - seg_t0)` is added to `accum_sec` and the stripped text
is appended to `en_parts`. -/
def CaptionBuffer.add (b : CaptionBuffer) (s e : ℚ) (text : Str) : CaptionBuffer :=
  if text = [] then b
  else
    { b with
      t0 := some (b.t0.getD s)
      t1 := some e
      accum_sec := b.accum_sec + max 0 (e - s)
      en_parts := b.en_parts ++ [pyStrip text] }

/-- Method `CaptionBuffer._joined_en`: `" ".join(self.en_parts).strip()`. -/
def CaptionBuffer.joined (b : CaptionBuffer) : Str :=
  pyStrip (List.intercalate [' '] b.en_parts)

/-- Method `CaptionBuffer.ready` (`app/main.py`, lines 109–117). -/
def CaptionBuffer.ready (b : CaptionBuffer) : Bool :=
  let en := b.joined
  if en.length < b.min_chars then false
  else if b.max_window ≤ b.accum_sec then true
  else if b.min_window ≤ b.accum_sec ∧ endsPunct en then true
  else false

/-- Method `CaptionBuffer.flush` (`app/main.py`, lines 119–125): returns
`((t0 or 0.0, t1 or 0.0), en)` where `en` gets a period appended when it is
non-empty, lacks terminal punctuation and is longer than 40 characters,
and the reset successor state. -/
def CaptionBuffer.flush (b : CaptionBuffer) : ((ℚ × ℚ) × Str) × CaptionBuffer :=
  let en := b.joined
  let en' := if en ≠ [] ∧ ¬ endsPunct en ∧ 40 < en.length then en ++ ['.'] else en
  (((b.t0.getD 0, b.t1.getD 0), en'), b.reset)

/-- A sequence of `add` calls, left to right. -/
def CaptionBuffer.applyAdds (b : CaptionBuffer) (l : List (ℚ × ℚ × Str)) : CaptionBuffer :=
  l.foldl (fun b x => b.add x.1 x.2.1 x.2.2) b

/-! ## The websocket ingestion loop `ws_stream` (`app/main.py`, lines 225–294)

The loop body is modelled as a step function on an explicit state.  The
external translation service (`translate_text`) is passed in as a function
parameter `tr`; `SESSION.append` mirrors the `ko_batch` outputs and is not
modelled separately. -/

/-- A caption fragment as stored in the `pending` slot of `ws_stream`:
`{"seq", "t0", "t1", "text_en"}`. -/
structure Frag where
  seq : ℕ
  t0 : ℚ
  t1 : ℚ
  text : Str
deriving DecidableEq

/-- One transcription result for one audio chunk, as returned by
`transcribe_chunk`: overall text and the list of `(start, end)` pairs of
the recognized segments. -/
structure Chunk where
  text : Str
  segs : List (ℚ × ℚ)
deriving DecidableEq

/-- The `seg_t0`/`seg_t1` extraction (`app/main.py`, lines 241–245): the first
segment's start and the last segment's end, both `0.0` when the segment
list is empty. -/
def segSpan (segs : List (ℚ × ℚ)) : ℚ × ℚ :=
  match segs with
  | [] => (0, 0)
  | s :: rest => (s.1, (rest.getLast?.getD s).2)

/-- The per-session mutable state of the `ws_stream` loop: the sequence
counter `seq`, the single `pending` slot, the window `buffer` and the
global timeline cursor `timeline_pos`. -/
structure WsState where
  seq : ℕ
  pending : Option Frag
  buffer : CaptionBuffer
  timeline : ℚ
deriving DecidableEq

/-- The initial state of `ws_stream`: `seq = 1`, no pending fragment,
`CaptionBuffer(min_window_sec=10.0, max_window_sec=15.0, min_chars=25)`,
`timeline_pos = 0.0`. -/
def wsInit : WsState := ⟨1, none, mkBuffer 10 15 25, 0⟩

/-- The outputs of one iteration of the `ws_stream` loop: the successor
state, the fragments emitted as `en_final` events, the fragments passed to
`buffer.add`, the `en_partial` fragment of the new chunk (`draft`), and
the flushed `ko_batch` windows `(t0, t1, text_en, text_ko)`. -/
structure StepOut where
  state : WsState
  finals : List Frag
  adds : List Frag
  draft : Frag
  batches : List (ℚ × ℚ × Str × Str)
deriving DecidableEq

/-- The promotion prefix of the loop body (`app/main.py`, lines 248–266):
if there is a pending fragment with non-empty text, emit it as `en_final`,
add it to the window buffer, flush (translate, append, `ko_batch`) when
the buffer is ready, and advance the timeline cursor to the pending
fragment's end. -/
def promote (tr : Str → Str) (st : WsState) : WsState × List Frag × List (ℚ × ℚ × Str × Str) :=
  match st.pending with
  | none => (st, [], [])
  | some p =>
    if p.text = [] then (st, [], [])
    else
      let b1 := st.buffer.add p.t0 p.t1 p.text
      if b1.ready then
        let f := b1.flush
        let full := f.1.2
        let ko := if full = [] then [] else tr full
        ({ st with buffer := f.2, timeline := p.t1 },
          [p], [(f.1.1.1, f.1.1.2, full, ko)])
      else
        ({ st with buffer := b1, timeline := p.t1 }, [p], [])

/-- One iteration of the `ws_stream` receive loop (`app/main.py`,
lines 237–280): transcribe (here: the already-transcribed `Chunk`),
normalize the text with `clean_en`, promote the previous pending fragment,
map the chunk's local offsets through the timeline cursor, emit the
`en_partial` fragment and store it as the new pending fragment. -/
def wsStep (tr : Str → Str) (st : WsState) (c : Chunk) : StepOut :=
  let te := clean_en (pyStrip c.text)
  let sp := segSpan c.segs
  let pr := promote tr st
  let st1 := pr.1
  let f : Frag := ⟨st.seq, r2 (st1.timeline + sp.1), r2 (st1.timeline + sp.2), te⟩
  ⟨{ st1 with pending := some f, seq := st.seq + 1 }, pr.2.1, pr.2.1, f, pr.2.2⟩

/-- The accumulated outputs of a run of the `ws_stream` loop. -/
structure RunOut where
  state : WsState
  finals : List Frag
  adds : List Frag
  drafts : List Frag
  batches : List (ℚ × ℚ × Str × Str)
deriving DecidableEq

/-- Run the `ws_stream` loop over a list of chunks, accumulating outputs. -/
def wsRun (tr : Str → Str) (st : WsState) : List Chunk → RunOut
  | [] => ⟨st, [], [], [], []⟩
  | c :: cs =>
    let o := wsStep tr st c
    let R := wsRun tr o.state cs
    ⟨R.state, o.finals ++ R.finals, o.adds ++ R.adds, o.draft :: R.drafts,
      o.batches ++ R.batches⟩

/-- The `WebSocketDisconnect` handler of `ws_stream` (`app/main.py`,
lines 282–289): a pending fragment with non-empty text is added to the
buffer, and a non-empty buffer is flushed into one final session entry.
Returns the fragments added and the entries appended. -/
def wsFinish (tr : Str → Str) (st : WsState) : List Frag × List (ℚ × ℚ × Str × Str) :=
  let (b1, adds) :=
    match st.pending with
    | some p => if p.text = [] then (st.buffer, []) else (st.buffer.add p.t0 p.t1 p.text, [p])
    | none => (st.buffer, [])
  if b1.en_parts = [] then (adds, [])
  else
    let f := b1.flush
    let full := f.1.2
    let ko := if full = [] then [] else tr full
    (adds, [(f.1.1.1, f.1.1.2, full, ko)])

/-! ## The HTTP chunk ingestion timeline (`app/main.py`, lines 408–417)

`http_upload_chunk` keeps a per-session cursor `SESSION_TIMELINE[sid]`,
maps each chunk's local span through it and unconditionally advances the
cursor to the chunk's global end. -/

/-- Map a list of local `(start, end)` spans to global offsets starting
from cursor `t`: each chunk returns `(t + start, t + end)` and the cursor
becomes the chunk's global end `t + end`. -/
def httpOffsets (t : ℚ) : List (ℚ × ℚ) → List (ℚ × ℚ)
  | [] => []
  | (s, e) :: rest => (t + s, t + e) :: httpOffsets (t + e) rest

/-- The global offsets computed by `http_upload_chunk` for a fresh session
(cursor initialized to `0.0` by `/session/start`). -/
def globalOffsets (chunks : List (ℚ × ℚ)) : List (ℚ × ℚ) := httpOffsets 0 chunks

/-- The outputs of one `POST /chunk` request past the ASR call
(`app/main.py`, lines 407–440): new cursor and buffer, the `en_partial`
SSE payload `(t0, t1, text_en)`, and the flushed `ko_batch` windows. -/
structure HttpOut where
  timeline : ℚ
  buffer : CaptionBuffer
  evT0 : ℚ
  evT1 : ℚ
  evText : Str
  batches : List (ℚ × ℚ × Str × Str)
deriving DecidableEq

/-- One `POST /chunk` request past the ASR call: normalize the text with
`clean_en`, map the chunk's local span through the session cursor, advance
the cursor to the chunk's global end, publish `en_partial`, add to the
session's window buffer, and flush when ready. -/
def httpStep (tr : Str → Str) (tl : ℚ) (buf : CaptionBuffer) (c : Chunk) : HttpOut :=
  let text_en := clean_en (pyStrip c.text)
  let sp := segSpan c.segs
  let g0 := tl + sp.1
  let g1 := tl + sp.2
  let b1 := buf.add g0 g1 text_en
  if b1.ready then
    let f := b1.flush
    let full := f.1.2
    let ko := if full = [] then [] else tr full
    ⟨g1, f.2, r2 g0, r2 g1, text_en, [(f.1.1.1, f.1.1.2, full, ko)]⟩
  else
    ⟨g1, b1, r2 g0, r2 g1, text_en, []⟩

/-! ## EventBroker (`app/main.py`, lines 130–158)

Subscriber queues are identified by the order in which they were created
(a fresh natural number per `subscribe`).  The broker state maps each
queue id to its contents; `subs` lists the `(queue, session)` pairs
currently registered.  Operations on the broker are modelled as a trace of
`subscribe` / `unsubscribe` / `publish` calls. -/

/-- A published message: `{"type": event_type, "data": data, "id": msg_id}`. -/
structure Msg where
  etype : Str
  data : Str
  id : ℕ
deriving DecidableEq

/-- One broker operation. -/
inductive BOp where
  | subscribe (sid : Str)
  | unsubscribe (sid : Str) (q : ℕ)
  | publish (sid : Str) (etype data : Str)
deriving DecidableEq

/-- The broker state: the next fresh queue id, the global message counter
`_msg_id`, the registered `(queue, session)` pairs `_subs`, and each
queue's contents. -/
structure BrokerState where
  nextQ : ℕ
  msgId : ℕ
  subs : List (ℕ × Str)
  queues : ℕ → List Msg

/-- The initial broker state (`EventBroker.__init__`). -/
def brokerInit : BrokerState := ⟨0, 0, [], fun _ => []⟩

/-- One broker operation on the state:
* `subscribe sid` creates a fresh empty queue registered for `sid`;
* `unsubscribe sid q` discards `q` from the subscribers of `sid`;
* `publish sid t d` increments `_msg_id`, forms the message, and appends a
  copy to every queue currently registered for `sid` (`put_nowait` on an
  unbounded queue always succeeds). -/
def brokerStep (st : BrokerState) : BOp → BrokerState
  | .subscribe sid =>
    ⟨st.nextQ + 1, st.msgId, (st.nextQ, sid) :: st.subs,
      fun q => if q = st.nextQ then [] else st.queues q⟩
  | .unsubscribe sid q =>
    ⟨st.nextQ, st.msgId, st.subs.filter (fun p => !(p.1 = q && p.2 = sid)), st.queues⟩
  | .publish sid t d =>
    let m : Msg := ⟨t, d, st.msgId + 1⟩
    ⟨st.nextQ, st.msgId + 1, st.subs,
      fun q => if (q, sid) ∈ st.subs then st.queues q ++ [m] else st.queues q⟩

/-- Run a trace of broker operations from a state. -/
def brokerRun (st : BrokerState) : List BOp → BrokerState
  | [] => st
  | op :: ops => brokerRun (brokerStep st op) ops

/-- The messages a trace publishes for session `s`, given that the global
message counter holds `n` when the trace starts. -/
def sentTo (s : Str) : List BOp → ℕ → List Msg
  | [], _ => []
  | .publish s' t d :: ops, n =>
    (if s' = s then [(⟨t, d, n + 1⟩ : Msg)] else []) ++ sentTo s ops (n + 1)
  | .subscribe _ :: ops, n => sentTo s ops n
  | .unsubscribe _ _ :: ops, n => sentTo s ops n

/-! ## `transcribe_chunk` (`app/asr.py`, lines 65–84)

The external transcription API and the ffmpeg fallback are abstracted as
the parameters `primary` and `fallback` (each either a result or an error
message).  The function body's own control flow — the input-size guard and
the primary/fallback cascade — is modelled faithfully. -/

/-- The result shape of `transcribe_chunk`:
`{text: string, segments: [{start, end, text}]}`. -/
structure AsrResult where
  text : Str
  segments : List (ℚ × ℚ × Str)
deriving DecidableEq

/-- The wrapper `transcribe_chunk(audio_bytes)`: raises `ValueError` for empty or
too-small input (fewer than 100 bytes); otherwise returns the primary
transcription, or the fallback (ffmpeg re-encode) when the primary fails,
or an error when both fail.  Audio is modelled as its byte list. -/
def transcribe_chunk (primary fallback : Except Str AsrResult)
    (audio : List ℕ) : Except Str AsrResult :=
  if audio.length < 100 then
    .error ("Empty or too-small audio chunk".toList)
  else
    match primary with
    | .ok r => .ok r
    | .error _ =>
      match fallback with
      | .ok r => .ok r
      | .error e2 => .error ("ASR failed: ".toList ++ e2)

/-! ## `SessionStore.to_txt` (`app/session.py`, lines 30–39)

An entry is one `{"t0","t1","text_en","text_ko"}` record.  `to_txt`
renders one numbered block per entry — header with the times formatted to
two decimals, `EN:` line, optional `KO:` line when the target text is
non-empty, blank separator — joins the lines with newlines and strips the
result. -/

/-- One persisted session entry. -/
structure SEntry where
  t0 : ℚ
  t1 : ℚ
  text_en : Str
  text_ko : Str
deriving DecidableEq

/-- The decimal digit character for `n < 10`. -/
def digitChar (n : ℕ) : Char := Char.ofNat (48 + n)

/-- Decimal digits of a natural number, via fuel (structural recursion so
that concrete inputs evaluate by kernel reduction). -/
def toDigitsAux : ℕ → ℕ → Str
  | 0, _ => []
  | fuel + 1, n =>
    if n < 10 then [digitChar n] else toDigitsAux fuel (n / 10) ++ [digitChar (n % 10)]

/-- The decimal digit string of a natural number (no leading zeros, `"0"`
for zero). -/
def natToDigits (n : ℕ) : Str := toDigitsAux (n + 1) n

/-- The value of a decimal digit string. -/
def digitsToNat (s : Str) : ℕ := s.foldl (fun a c => a * 10 + (c.toNat - 48)) 0

/-- ASCII decimal digit test. -/
def isDigitC (c : Char) : Bool := 48 ≤ c.toNat && c.toNat ≤ 57

/-- The Python float format `f"{x:.2f}"`, modelled on `ℚ`: the magnitude is
rounded to an integer number of hundredths, rendered as integer part,
point, and exactly two decimal digits, with a leading minus sign for
negative inputs. -/
def fmt2 (x : ℚ) : Str :=
  let n : ℕ := (round (|x| * 100)).toNat
  let body := natToDigits (n / 100) ++ '.' :: [digitChar (n % 100 / 10), digitChar (n % 10)]
  if x < 0 then '-' :: body else body

/-- The rational value denoted by `fmt2 x` — the two-decimal rounding of
`x` applied at render time. -/
def fmtVal (x : ℚ) : ℚ :=
  (if x < 0 then -1 else 1) * (((round (|x| * 100)).toNat : ℚ) / 100)

/-- An entry with its times replaced by their render-time roundings. -/
def roundEntry (e : SEntry) : SEntry := { e with t0 := fmtVal e.t0, t1 := fmtVal e.t1 }

/-- The header line `f"[{i}] ({t0:.2f}–{t1:.2f}s)"`. -/
def hdrLine (i : ℕ) (e : SEntry) : Str :=
  '[' :: natToDigits i ++ ']' :: ' ' :: '(' :: (fmt2 e.t0 ++ '–' :: fmt2 e.t1 ++ ['s', ')'])

/-- The `f"EN: {text_en}"` line. -/
def enLine (e : SEntry) : Str := 'E' :: 'N' :: ':' :: ' ' :: e.text_en

/-- The `f"KO: {text_ko}"` line. -/
def koLine (e : SEntry) : Str := 'K' :: 'O' :: ':' :: ' ' :: e.text_ko

/-- The list of lines built by `to_txt`, numbering the entries from `i`. -/
def renderLines : ℕ → List SEntry → List Str
  | _, [] => []
  | i, e :: es =>
    hdrLine i e :: enLine e ::
      ((if e.text_ko = [] then [] else [koLine e]) ++ [[]] ++ renderLines (i + 1) es)

/-- Python `"\n".join(lines)`. -/
def joinNl : List Str → Str
  | [] => []
  | [l] => l
  | l :: rest => l ++ '\n' :: joinNl rest

/-- Method `SessionStore.to_txt`: join the rendered lines with newlines and strip
the result. -/
def to_txt (entries : List SEntry) : Str := pyStrip (joinNl (renderLines 1 entries))

/-- Splitting a string at newline characters (the inverse of `joinNl` on
newline-free lines). -/
def splitNl : Str → List Str
  | [] => [[]]
  | c :: rest =>
    if c = '\n' then [] :: splitNl rest
    else
      match splitNl rest with
      | [] => [[c]]
      | l :: ls => (c :: l) :: ls

/-- Modelled from the spec: parse a rendered two-decimal number (the
repository renders transcripts but contains no re-parser; §8 of the spec
states the render/re-parse round trip). -/
def parseF2Pos (s : Str) : Option ℚ :=
  let ip := s.takeWhile isDigitC
  match s.dropWhile isDigitC with
  | '.' :: d1 :: d2 :: [] =>
    if ip = [] || !isDigitC d1 || !isDigitC d2 then none
    else some ((digitsToNat ip : ℚ) + (((d1.toNat - 48) * 10 + (d2.toNat - 48) : ℕ) : ℚ) / 100)
  | _ => none

/-- Modelled from the spec: parse an optionally negated two-decimal
number. -/
def parseFixed2 (s : Str) : Option ℚ :=
  match s with
  | [] => none
  | c :: rest =>
    if c = '-' then (parseF2Pos rest).map (fun v => -v) else parseF2Pos (c :: rest)

/-- Modelled from the spec: final step of header parsing — expect
`s)` and the two parsed times. -/
def parseHeader4b (i : ℕ) (a b : Str) : Str → Option (ℕ × ℚ × ℚ)
  | 's' :: ')' :: [] =>
    (match parseFixed2 a, parseFixed2 b with
      | some x, some y => some (i, x, y)
      | _, _ => none)
  | _ => none

/-- Modelled from the spec: split the second time at the closing `s`. -/
def parseHeader4 (i : ℕ) (a rest3 : Str) : Option (ℕ × ℚ × ℚ) :=
  parseHeader4b i a (rest3.takeWhile (· != 's')) (rest3.dropWhile (· != 's'))

/-- Modelled from the spec: expect the en-dash between the two times. -/
def parseHeader3b (i : ℕ) (a : Str) : Str → Option (ℕ × ℚ × ℚ)
  | '–' :: rest3 => parseHeader4 i a rest3
  | _ => none

/-- Modelled from the spec: split the first time at the en-dash. -/
def parseHeader3 (i : ℕ) (rest2 : Str) : Option (ℕ × ℚ × ℚ) :=
  parseHeader3b i (rest2.takeWhile (· != '–')) (rest2.dropWhile (· != '–'))

/-- Modelled from the spec: expect `] (` after the entry number. -/
def parseHeader2 (i : ℕ) : Str → Option (ℕ × ℚ × ℚ)
  | ']' :: ' ' :: '(' :: rest2 => parseHeader3 i rest2
  | _ => none

/-- Modelled from the spec: read the entry number. -/
def parseHeader1 (rest : Str) : Option (ℕ × ℚ × ℚ) :=
  if rest.takeWhile isDigitC = [] then none
  else parseHeader2 (digitsToNat (rest.takeWhile isDigitC)) (rest.dropWhile isDigitC)

/-- Modelled from the spec: parse a transcript header line
`[i] (a–b s)`, returning the entry number and the two times. -/
def parseHeader (line : Str) : Option (ℕ × ℚ × ℚ) :=
  match line with
  | '[' :: rest => parseHeader1 rest
  | _ => none

/-- Modelled from the spec: strip the `EN: ` line marker. -/
def stripEn : Str → Option Str
  | 'E' :: 'N' :: ':' :: ' ' :: rest => some rest
  | _ => none

/-- Modelled from the spec: strip the `KO: ` line marker. -/
def stripKo : Str → Option Str
  | 'K' :: 'O' :: ':' :: ' ' :: rest => some rest
  | _ => none

/-- Modelled from the spec: the transcript parser's position within an
entry block. -/
inductive PMode where
  | header
  | enline (t0 t1 : ℚ)
  | afterEn (e : SEntry)
  | afterKo (e : SEntry)
deriving DecidableEq

/-- Modelled from the spec: the transcript parser's state — next expected
entry number, position within the current block, entries parsed so far. -/
structure PState where
  idx : ℕ
  mode : PMode
  acc : List SEntry
deriving DecidableEq

/-- Modelled from the spec: consume one transcript line. -/
def parseLine (st : PState) (line : Str) : Option PState :=
  match st.mode with
  | .header =>
    match parseHeader line with
    | some (i, a, b) => if i = st.idx then some ⟨st.idx, .enline a b, st.acc⟩ else none
    | none => none
  | .enline a b =>
    match stripEn line with
    | some t => some ⟨st.idx, .afterEn ⟨a, b, t, []⟩, st.acc⟩
    | none => none
  | .afterEn e =>
    if line = [] then some ⟨st.idx + 1, .header, st.acc ++ [e]⟩
    else
      match stripKo line with
      | some t => some ⟨st.idx, .afterKo ⟨e.t0, e.t1, e.text_en, t⟩, st.acc⟩
      | none => none
  | .afterKo e =>
    if line = [] then some ⟨st.idx + 1, .header, st.acc ++ [e]⟩
    else none

/-- Modelled from the spec: consume a list of transcript lines. -/
def parseLines (st : PState) : List Str → Option PState
  | [] => some st
  | l :: ls =>
    match parseLine st l with
    | some st' => parseLines st' ls
    | none => none

/-- Modelled from the spec: accept the parser's final state — the end of
input may fall after a complete block or right after an `EN:`/`KO:` line
(the trailing blank separator is removed by `strip` at render time). -/
def parseFinish (st : PState) : Option (List SEntry) :=
  match st.mode with
  | .header => some st.acc
  | .afterEn e => some (st.acc ++ [e])
  | .afterKo e => some (st.acc ++ [e])
  | .enline _ _ => none

/-- Modelled from the spec: re-parse an exported plain-text transcript,
recovering each entry's start, end, source text and target text.  The
repository contains no such parser; it is the inverse direction of the
round trip stated in §8 of the spec. -/
def parseTranscript (s : Str) : Option (List SEntry) :=
  if s = [] then some []
  else
    match parseLines ⟨1, .header, []⟩ (splitNl s) with
    | some st => parseFinish st
    | none => none

/-! ## Auxiliary definitions used by the statements -/

/-- The flattened sequence of global offsets, in emission order:
start₁, end₁, start₂, end₂, …. -/
def pairsFlat : List (ℚ × ℚ) → List ℚ
  | [] => []
  | (s, e) :: rest => s :: e :: pairsFlat rest

/-- The number of `publish` operations in a trace. -/
def pubCount (ops : List BOp) : ℕ :=
  ops.countP (fun op => match op with | .publish _ _ _ => true | _ => false)

/-- The broker invariant: every registered queue id is below the fresh
counter, and unallocated queues are empty. -/
def BrokerInv (st : BrokerState) : Prop :=
  (∀ p ∈ st.subs, p.1 < st.nextQ) ∧ (∀ q, st.nextQ ≤ q → st.queues q = [])

/-- No two adjacent whitespace characters. -/
def noWsPair (a b : Char) : Prop := ¬(isPyWs a = true ∧ isPyWs b = true)

/-! ## Theorems about the windowing policy -/

/-- Helper: `ready` unfolded into the propositional form used by claim C1. -/
theorem ready_iff (b : CaptionBuffer) :
    b.ready = true ↔
      (b.min_chars ≤ b.joined.length ∧
        (b.max_window ≤ b.accum_sec ∨
          (b.min_window ≤ b.accum_sec ∧ endsPunct b.joined = true))) := by
  unfold CaptionBuffer.ready
  by_cases h1 : b.joined.length < b.min_chars
  · simp [h1]
  · simp only [h1, if_false]
    by_cases h2 : b.max_window ≤ b.accum_sec
    · simp [h2]
      omega
    · by_cases h3 : b.min_window ≤ b.accum_sec ∧ endsPunct b.joined
      · simp [h2, h3]
        omega
      · simp [h2, h3]

/-- C1: `ready()` is true iff the joined text is at least `min_chars` long
and either the accumulated duration reached `max_window_seconds`, or it
reached `min_window_seconds` and the joined text ends in `.`, `?` or `!`;
in particular `ready()` is false whenever the joined text is shorter than
`min_chars`, regardless of accumulated duration. -/
theorem claim_C1_ready (b : CaptionBuffer) :
    (b.ready = true ↔
      (b.min_chars ≤ b.joined.length ∧
        (b.max_window ≤ b.accum_sec ∨
          (b.min_window ≤ b.accum_sec ∧ endsPunct b.joined = true)))) ∧
    (b.joined.length < b.min_chars → b.ready = false) := by
  refine ⟨ready_iff b, fun h => ?_⟩
  rcases hr : b.ready with _ | _
  · rfl
  · rcases (ready_iff b).mp hr with ⟨hlen, _⟩
    omega

/-- Witness for C1: a concrete buffer whose joined text is shorter than
`min_chars` (here 20) is not ready even with a huge accumulated duration. -/
theorem claim_C1_ready_witness :
    (⟨8, 12, 20, [['h', 'i']], some 0, some 100, 100⟩ : CaptionBuffer).ready = false :=
  (claim_C1_ready _).2 (by decide)

/-- C2: `flush()` returns the window span, defaulting to `(0.0, 0.0)` when
no fragment was ever added, together with the joined text with a period
appended exactly when that text is non-empty, lacks terminal punctuation
and is longer than 40 characters; and it unconditionally resets the
buffer: accumulated duration 0, empty fragment list, cleared window
start/end. -/
theorem claim_C2_flush (b : CaptionBuffer) :
    b.flush.1.1 = (b.t0.getD 0, b.t1.getD 0) ∧
    b.flush.1.2 =
      (if b.joined ≠ [] ∧ ¬ endsPunct b.joined ∧ 40 < b.joined.length
        then b.joined ++ ['.'] else b.joined) ∧
    b.flush.2.accum_sec = 0 ∧
    b.flush.2.en_parts = [] ∧
    b.flush.2.t0 = none ∧
    b.flush.2.t1 = none := by
  refine ⟨rfl, rfl, rfl, rfl, rfl, rfl⟩

/-- Helper for C6: `applyAdds` adds exactly the clamped durations of the
non-empty fragments to `accum_sec`, from any starting state. -/
theorem applyAdds_accum (l : List (ℚ × ℚ × Str)) :
    ∀ b : CaptionBuffer,
      (b.applyAdds l).accum_sec =
        b.accum_sec +
          ((l.filter (fun x => !x.2.2.isEmpty)).map
            (fun x => max 0 (x.2.1 - x.1))).sum := by
  induction l with
  | nil => intro b; simp [CaptionBuffer.applyAdds]
  | cons x xs ih =>
    intro b
    rcases x with ⟨s, e, t⟩
    by_cases ht : t = []
    · have : b.add s e t = b := by simp [CaptionBuffer.add, ht]
      simp only [CaptionBuffer.applyAdds, List.foldl_cons] at *
      rw [this, ih b]
      simp [ht]
    · have hadd : (b.add s e t).accum_sec = b.accum_sec + max 0 (e - s) := by
        simp [CaptionBuffer.add, ht]
      simp only [CaptionBuffer.applyAdds, List.foldl_cons] at *
      rw [ih (b.add s e t), hadd]
      have : (!t.isEmpty) = true := by
        simp [List.isEmpty_iff, ht]
      simp [this]
      ring

/-- C6: for every sequence of `add(start, end, text)` calls on a freshly
constructed `CaptionBuffer`, the accumulated duration is the sum, over the
added fragments with non-empty text, of `max(0, end - start)` — each
fragment's own clamped duration, not `window_end - window_start`. -/
theorem claim_C6_accum (minW maxW : ℚ) (minChars : ℕ) (l : List (ℚ × ℚ × Str)) :
    ((mkBuffer minW maxW minChars).applyAdds l).accum_sec =
      ((l.filter (fun x => !x.2.2.isEmpty)).map
        (fun x => max 0 (x.2.1 - x.1))).sum := by
  rw [applyAdds_accum]
  simp [mkBuffer, CaptionBuffer.reset]

/-! ## Theorems: `transcribe_chunk` on empty input (claim C8) -/

/-- Counterexample to C8: on empty audio input `transcribe_chunk` raises
`ValueError("Empty or too-small audio chunk")` (`app/asr.py`, line 70)
instead of yielding an empty result — even when the transcription API
would have returned the empty result. -/
theorem claim_C8_counterexample :
    transcribe_chunk (.ok ⟨[], []⟩) (.ok ⟨[], []⟩) [] ≠ .ok ⟨[], []⟩ := by
  simp [transcribe_chunk]

/-- C8 amended: for empty (or any smaller-than-100-byte) audio input,
`transcribe_chunk` raises a `ValueError` (modelled as `.error`) with the
message `Empty or too-small audio chunk`, regardless of how the external
transcription calls would behave. -/
theorem claim_C8_amended (primary fallback : Except Str AsrResult)
    (audio : List ℕ) (h : audio.length < 100) :
    transcribe_chunk primary fallback audio =
      .error ("Empty or too-small audio chunk".toList) := by
  simp [transcribe_chunk, h]

/-- Witness for the amended C8 at the concrete empty input. -/
theorem claim_C8_amended_witness :
    transcribe_chunk (.ok ⟨[], []⟩) (.ok ⟨[], []⟩) [] =
      .error ("Empty or too-small audio chunk".toList) :=
  claim_C8_amended (.ok ⟨[], []⟩) (.ok ⟨[], []⟩) [] (by decide)

/-! ## Theorems: the HTTP global timeline (claim C5) -/

/-- Helper: the cursor before chunk `i` is the start cursor plus the sum of
the previous local end offsets. -/
theorem httpOffsets_get (chunks : List (ℚ × ℚ)) :
    ∀ (t : ℚ) (i : ℕ),
      (httpOffsets t chunks)[i]? =
        (chunks[i]?).map (fun p =>
          (t + ((chunks.take i).map Prod.snd).sum + p.1,
           t + ((chunks.take i).map Prod.snd).sum + p.2)) := by
  induction chunks with
  | nil => intro t i; simp [httpOffsets]
  | cons c rest ih =>
    rcases c with ⟨s, e⟩
    intro t i
    match i with
    | 0 => simp [httpOffsets]
    | j + 1 =>
      simp only [httpOffsets, List.getElem?_cons_succ, List.take_succ_cons, List.map_cons,
        List.sum_cons]
      rw [ih (t + e) j]
      rcases h : rest[j]? with _ | p
      · simp
      · simp only [Option.map_some']
        congr 1
        rcases p with ⟨a, b⟩
        simp only [Prod.mk.injEq]
        constructor <;> ring

/-- Helper: starting from cursor `t`, every emitted offset is at least `t`
and the flattened offsets are non-decreasing, provided every local span
satisfies `0 ≤ start ≤ end`. -/
theorem httpOffsets_chain (chunks : List (ℚ × ℚ))
    (h : ∀ p ∈ chunks, 0 ≤ p.1 ∧ p.1 ≤ p.2) :
    ∀ t : ℚ, List.Chain' (· ≤ ·) (t :: pairsFlat (httpOffsets t chunks)) := by
  induction chunks with
  | nil => intro t; simp [httpOffsets, pairsFlat]
  | cons c rest ih =>
    rcases c with ⟨s, e⟩
    intro t
    have hc : 0 ≤ s ∧ s ≤ e := h (s, e) (by simp)
    have hrest : ∀ p ∈ rest, 0 ≤ p.1 ∧ p.1 ≤ p.2 := fun p hp => h p (by simp [hp])
    simp only [httpOffsets, pairsFlat]
    rw [List.chain'_cons, List.chain'_cons]
    exact ⟨by linarith [hc.1], by linarith [hc.2], ih hrest (t + e)⟩

/-- Counterexample to C5: for the chunk sequence `[(1, 2), (0, 3)]` the
second chunk's computed global start offset is `2` (the sum of the
previous local *end* offsets plus its own local start), while the sum of
the previously finalized fragment durations (`end − start`, i.e. `1`) plus
its own local start is `1 ≠ 2`. -/
theorem claim_C5_counterexample :
    globalOffsets [(1, 2), (0, 3)] = [(1, 2), (2, 5)] ∧
      ¬ ((2 : ℚ) = max 0 ((2 : ℚ) - 1) + 0) := by
  constructor
  · simp [globalOffsets, httpOffsets]
    norm_num
  · norm_num

/-- C5 amended: for all sequences of chunks with local offsets
`0 ≤ sᵢ ≤ eᵢ`, the computed global offsets over the whole sequence are
non-decreasing, and each chunk's computed global offsets equal the sum of
all previously finalized fragments' local **end** offsets plus the chunk's
own local offsets. -/
theorem claim_C5_amended (chunks : List (ℚ × ℚ))
    (h : ∀ p ∈ chunks, 0 ≤ p.1 ∧ p.1 ≤ p.2) :
    List.Chain' (· ≤ ·) (pairsFlat (globalOffsets chunks)) ∧
    ∀ i : ℕ,
      (globalOffsets chunks)[i]? =
        (chunks[i]?).map (fun p =>
          (((chunks.take i).map Prod.snd).sum + p.1,
           ((chunks.take i).map Prod.snd).sum + p.2)) := by
  constructor
  · exact (List.chain'_cons'.mp (httpOffsets_chain chunks h 0)).2
  · intro i
    rw [globalOffsets, httpOffsets_get chunks 0 i]
    rcases chunks[i]? with _ | p
    · simp
    · simp

/-- Witness for the amended C5 at the concrete chunk sequence
`[(0, 1), (1, 2)]`. -/
theorem claim_C5_amended_witness :
    List.Chain' (· ≤ ·) (pairsFlat (globalOffsets [((0 : ℚ), (1 : ℚ)), (1, 2)])) ∧
      (globalOffsets [((0 : ℚ), (1 : ℚ)), (1, 2)])[1]? = some (2, 3) := by
  have h := claim_C5_amended [((0 : ℚ), (1 : ℚ)), (1, 2)] (by norm_num)
  refine ⟨h.1, ?_⟩
  rw [h.2 1]
  norm_num

/-! ## Theorems: the event broker (claim C7) -/

/-- Helper: `pubCount` on a leading `subscribe`. -/
theorem pubCount_subscribe (sid : Str) (ops : List BOp) :
    pubCount (.subscribe sid :: ops) = pubCount ops := by
  simp [pubCount, List.countP_cons]

/-- Helper: `pubCount` on a leading `unsubscribe`. -/
theorem pubCount_unsubscribe (sid : Str) (q : ℕ) (ops : List BOp) :
    pubCount (.unsubscribe sid q :: ops) = pubCount ops := by
  simp [pubCount, List.countP_cons]

/-- Helper: `pubCount` on a leading `publish`. -/
theorem pubCount_publish (sid t d : Str) (ops : List BOp) :
    pubCount (.publish sid t d :: ops) = pubCount ops + 1 := by
  simp [pubCount, List.countP_cons]

/-- Helper: one broker step preserves the invariant. -/
theorem brokerStep_inv (st : BrokerState) (op : BOp) (h : BrokerInv st) :
    BrokerInv (brokerStep st op) := by
  obtain ⟨h1, h2⟩ := h
  cases op with
  | subscribe sid =>
    constructor
    · intro p hp
      simp only [brokerStep, List.mem_cons] at hp
      rcases hp with rfl | hp
      · simp [brokerStep]
      · simp only [brokerStep]
        exact Nat.lt_succ_of_lt (h1 p hp)
    · intro q hq
      simp only [brokerStep] at hq ⊢
      have hne : ¬ (q = st.nextQ) := by omega
      rw [if_neg hne]
      exact h2 q (by omega)
  | unsubscribe sid q' =>
    refine ⟨?_, h2⟩
    intro p hp
    exact h1 p (List.mem_of_mem_filter hp)
  | publish sid t d =>
    refine ⟨h1, ?_⟩
    intro q hq
    simp only [brokerStep] at hq ⊢
    have hns : ¬ ((q, sid) ∈ st.subs) := fun hmem => absurd (h1 _ hmem) (by omega)
    rw [if_neg hns]
    exact h2 q hq

/-- Helper: the invariant holds along any trace from the initial state. -/
theorem brokerRun_inv (ops : List BOp) :
    ∀ st : BrokerState, BrokerInv st → BrokerInv (brokerRun st ops) := by
  induction ops with
  | nil => intro st h; exact h
  | cons op ops ih => intro st h; exact ih _ (brokerStep_inv st op h)

/-- Helper: the global message counter advances by the number of publishes. -/
theorem brokerRun_msgId (ops : List BOp) :
    ∀ st : BrokerState, (brokerRun st ops).msgId = st.msgId + pubCount ops := by
  induction ops with
  | nil => intro st; simp [brokerRun, pubCount]
  | cons op ops ih =>
    intro st
    have hrun : brokerRun st (op :: ops) = brokerRun (brokerStep st op) ops := rfl
    rw [hrun, ih]
    cases op with
    | subscribe sid => rw [pubCount_subscribe]; rfl
    | unsubscribe sid q => rw [pubCount_unsubscribe]; rfl
    | publish sid t d =>
      rw [pubCount_publish]
      show st.msgId + 1 + pubCount ops = st.msgId + (pubCount ops + 1)
      omega

/-- Helper: every message a trace publishes for a session has an id above
the counter at the start of the trace and at most the final counter. -/
theorem sentTo_id_bounds (s : Str) (ops : List BOp) :
    ∀ (n : ℕ) (m : Msg), m ∈ sentTo s ops n → n < m.id ∧ m.id ≤ n + pubCount ops := by
  induction ops with
  | nil => intro n m hm; simp [sentTo] at hm
  | cons op ops ih =>
    intro n m hm
    cases op with
    | subscribe sid =>
      rw [pubCount_subscribe]
      exact ih n m hm
    | unsubscribe sid q =>
      rw [pubCount_unsubscribe]
      exact ih n m hm
    | publish sid t d =>
      rw [pubCount_publish]
      by_cases hs : sid = s
      · have he : sentTo s (BOp.publish sid t d :: ops) n
            = (⟨t, d, n + 1⟩ : Msg) :: sentTo s ops (n + 1) := by
          simp [sentTo, hs]
        rw [he] at hm
        rcases List.mem_cons.mp hm with rfl | hm
        · exact ⟨Nat.lt_succ_self n, by show n + 1 ≤ n + (pubCount ops + 1); omega⟩
        · have := ih (n + 1) m hm
          omega
      · have he : sentTo s (BOp.publish sid t d :: ops) n = sentTo s ops (n + 1) := by
          simp [sentTo, hs]
        rw [he] at hm
        have := ih (n + 1) m hm
        omega

/-- Helper: the ids of the messages published for a session are strictly
increasing along the trace. -/
theorem sentTo_chain (s : Str) (ops : List BOp) :
    ∀ n : ℕ, List.Chain' (· < ·) ((sentTo s ops n).map Msg.id) := by
  induction ops with
  | nil => intro n; simp [sentTo]
  | cons op ops ih =>
    intro n
    cases op with
    | subscribe sid => exact ih n
    | unsubscribe sid q => exact ih n
    | publish sid t d =>
      by_cases hs : sid = s
      · have he : sentTo s (BOp.publish sid t d :: ops) n
            = (⟨t, d, n + 1⟩ : Msg) :: sentTo s ops (n + 1) := by
          simp [sentTo, hs]
        rw [he, List.map_cons]
        refine List.chain'_cons'.mpr ⟨?_, ih (n + 1)⟩
        intro y hy
        have hmem : y ∈ (sentTo s ops (n + 1)).map Msg.id := List.mem_of_mem_head? hy
        rcases List.mem_map.mp hmem with ⟨m, hm, rfl⟩
        exact (sentTo_id_bounds s ops (n + 1) m hm).1
      · have he : sentTo s (BOp.publish sid t d :: ops) n = sentTo s ops (n + 1) := by
          simp [sentTo, hs]
        rw [he]
        exact ih (n + 1)

/-- Helper: running a concatenated trace runs the pieces in order. -/
theorem brokerRun_append (l1 l2 : List BOp) :
    ∀ st : BrokerState, brokerRun st (l1 ++ l2) = brokerRun (brokerRun st l1) l2 := by
  induction l1 with
  | nil => intro st; rfl
  | cons op ops ih => intro st; exact ih (brokerStep st op)

/-- Helper: a queue registered for session `s`, never unsubscribed along
the trace, receives exactly the messages published for `s` along the
trace, appended in order to its prior contents. -/
theorem brokerRun_queue (ops : List BOp) :
    ∀ (st : BrokerState) (q : ℕ) (s : Str),
      (q, s) ∈ st.subs → q < st.nextQ →
      (∀ s', (q, s') ∈ st.subs → s' = s) →
      (∀ sid, BOp.unsubscribe sid q ∉ ops) →
      (brokerRun st ops).queues q = st.queues q ++ sentTo s ops st.msgId := by
  induction ops with
  | nil =>
    intro st q s _ _ _ _
    simp [brokerRun, sentTo]
  | cons op ops ih =>
    intro st q s hmem hlt huniq hno
    have hno' : ∀ sid, BOp.unsubscribe sid q ∉ ops :=
      fun sid h => hno sid (List.mem_cons_of_mem _ h)
    have hrun : brokerRun st (op :: ops) = brokerRun (brokerStep st op) ops := rfl
    rw [hrun]
    cases op with
    | subscribe sid =>
      have hq' : (q, s) ∈ (brokerStep st (.subscribe sid)).subs :=
        List.mem_cons_of_mem _ hmem
      have hlt' : q < (brokerStep st (.subscribe sid)).nextQ := Nat.lt_succ_of_lt hlt
      have huniq' : ∀ s', (q, s') ∈ (brokerStep st (.subscribe sid)).subs → s' = s := by
        intro s' hs'
        simp only [brokerStep, List.mem_cons] at hs'
        rcases hs' with heq | hs'
        · have hq : q = st.nextQ := congrArg Prod.fst heq
          exact absurd hq (Nat.ne_of_lt hlt)
        · exact huniq s' hs'
      have hqueue : (brokerStep st (.subscribe sid)).queues q = st.queues q := by
        simp only [brokerStep]
        rw [if_neg (Nat.ne_of_lt hlt)]
      rw [ih _ q s hq' hlt' huniq' hno', hqueue]
      rfl
    | unsubscribe sid q' =>
      have hqq' : q' ≠ q := by
        intro h
        subst h
        exact hno sid (List.mem_cons_self _ _)
      have hne : q ≠ q' := fun h => hqq' h.symm
      have hq' : (q, s) ∈ (brokerStep st (.unsubscribe sid q')).subs := by
        simp only [brokerStep, List.mem_filter]
        refine ⟨hmem, ?_⟩
        simp [hne]
      have huniq' : ∀ s', (q, s') ∈ (brokerStep st (.unsubscribe sid q')).subs → s' = s :=
        fun s' hs' => huniq s' (List.mem_of_mem_filter hs')
      rw [ih _ q s hq' hlt huniq' hno']
      rfl
    | publish sid t d =>
      by_cases hs : sid = s
      · subst hs
        have hqueue : (brokerStep st (.publish sid t d)).queues q
            = st.queues q ++ [⟨t, d, st.msgId + 1⟩] := by
          simp only [brokerStep]
          rw [if_pos hmem]
        have hsent : sentTo sid (BOp.publish sid t d :: ops) st.msgId
            = (⟨t, d, st.msgId + 1⟩ : Msg) :: sentTo sid ops (st.msgId + 1) := by
          simp [sentTo]
        rw [ih (brokerStep st (.publish sid t d)) q sid hmem hlt huniq hno',
          hqueue, hsent, List.append_assoc]
        rfl
      · have hn : ¬ ((q, sid) ∈ st.subs) := fun hmem' => hs (huniq sid hmem')
        have hqueue : (brokerStep st (.publish sid t d)).queues q = st.queues q := by
          simp only [brokerStep]
          rw [if_neg hn]
        have hsent : sentTo s (BOp.publish sid t d :: ops) st.msgId
            = sentTo s ops (st.msgId + 1) := by
          simp [sentTo, hs]
        rw [ih (brokerStep st (.publish sid t d)) q s hmem hlt huniq hno',
          hqueue, hsent]
        rfl

/-- C7: `publish` increments the broker-global message counter and assigns
the new value as the event id, enqueuing onto exactly the queues
registered for the session at the moment of publication; a queue created
by `subscribe` after a prefix `pre` of the trace ends up holding exactly
the messages published for its session afterwards (so it receives every
later event for its session and never an event published during `pre`,
all of which have ids at most the counter at attach time, while the
received ids are strictly increasing and strictly above that counter). -/
theorem claim_C7_broker (pre post : List BOp) (s : Str)
    (hq : ∀ sid : Str, BOp.unsubscribe sid (brokerRun brokerInit pre).nextQ ∉ post) :
    (∀ (st : BrokerState) (sid t d : Str) (q : ℕ),
        (brokerStep st (.publish sid t d)).msgId = st.msgId + 1 ∧
        (brokerStep st (.publish sid t d)).subs = st.subs ∧
        (brokerStep st (.publish sid t d)).queues q =
          (if (q, sid) ∈ st.subs
            then st.queues q ++ [⟨t, d, st.msgId + 1⟩] else st.queues q)) ∧
    (brokerRun brokerInit (pre ++ BOp.subscribe s :: post)).queues
        (brokerRun brokerInit pre).nextQ
      = sentTo s post (brokerRun brokerInit pre).msgId ∧
    List.Chain' (· < ·)
      ((sentTo s post (brokerRun brokerInit pre).msgId).map Msg.id) ∧
    (∀ m ∈ sentTo s post (brokerRun brokerInit pre).msgId,
        (brokerRun brokerInit pre).msgId < m.id) ∧
    (∀ (s' : Str) (m : Msg), m ∈ sentTo s' pre 0 →
        m.id ≤ (brokerRun brokerInit pre).msgId) := by
  have hinv : BrokerInv (brokerRun brokerInit pre) :=
    brokerRun_inv pre brokerInit ⟨by simp [brokerInit], fun q _ => rfl⟩
  refine ⟨fun st sid t d q => ⟨rfl, rfl, rfl⟩, ?_, sentTo_chain s post _, ?_, ?_⟩
  · rw [brokerRun_append]
    have hrun : brokerRun (brokerRun brokerInit pre) (BOp.subscribe s :: post)
        = brokerRun (brokerStep (brokerRun brokerInit pre) (.subscribe s)) post := rfl
    rw [hrun]
    set T := brokerRun brokerInit pre with hT
    have hmem : (T.nextQ, s) ∈ (brokerStep T (.subscribe s)).subs :=
      List.mem_cons_self _ _
    have hlt : T.nextQ < (brokerStep T (.subscribe s)).nextQ := Nat.lt_succ_self _
    have huniq : ∀ s', (T.nextQ, s') ∈ (brokerStep T (.subscribe s)).subs → s' = s := by
      intro s' hs'
      simp only [brokerStep, List.mem_cons] at hs'
      rcases hs' with heq | hs'
      · exact congrArg Prod.snd heq
      · exact absurd (hinv.1 _ hs') (by omega)
    rw [brokerRun_queue post _ T.nextQ s hmem hlt huniq (hq ·)]
    have hq0 : (brokerStep T (.subscribe s)).queues T.nextQ = [] := by
      simp [brokerStep]
    rw [hq0]
    rfl
  · intro m hm
    exact (sentTo_id_bounds s post _ m hm).1
  · intro s' m hm
    have hb := (sentTo_id_bounds s' pre 0 m hm).2
    rw [brokerRun_msgId pre brokerInit]
    simpa [brokerInit] using hb

/-- Witness for C7: one event is published for the session before a
subscriber attaches and one after; the late subscriber's queue holds
exactly the later event (id 2), whose id exceeds the counter (1) at
attach time. -/
theorem claim_C7_broker_witness :
    (brokerRun brokerInit
        ([BOp.publish [' '] [] []] ++ BOp.subscribe [' '] ::
          [BOp.publish [' '] [] []])).queues
        (brokerRun brokerInit [BOp.publish [' '] [] []]).nextQ
      = sentTo [' '] [BOp.publish [' '] [] []]
          (brokerRun brokerInit [BOp.publish [' '] [] []]).msgId ∧
    List.Chain' (· < ·)
      ((sentTo [' '] [BOp.publish [' '] [] []]
          (brokerRun brokerInit [BOp.publish [' '] [] []]).msgId).map Msg.id) := by
  have h := claim_C7_broker [BOp.publish [' '] [] []] [BOp.publish [' '] [] []] [' ']
    (by intro sid hmem; simp at hmem)
  exact ⟨h.2.1, h.2.2.1⟩

/-! ## Theorems: the pending-fragment promotion machine (claims C3, C4) -/

/-- Helper: the shape of `promote` — which fragment is finalized, and how
the pending slot, sequence counter and timeline cursor change. -/
theorem promote_out (tr : Str → Str) (st : WsState) :
    (promote tr st).2.1 = st.pending.toList.filter (fun f => !f.text.isEmpty) ∧
    (promote tr st).1.pending = st.pending ∧
    (promote tr st).1.seq = st.seq ∧
    (promote tr st).1.timeline =
      (match st.pending with
        | some p => if p.text = [] then st.timeline else p.t1
        | none => st.timeline) := by
  cases hp : st.pending with
  | none => simp [promote, hp]
  | some p =>
    by_cases ht : p.text = []
    · simp [promote, hp, ht]
    · by_cases hr : (st.buffer.add p.t0 p.t1 p.text).ready
      · simp [promote, hp, ht, hr, List.isEmpty_iff]
      · simp [promote, hp, ht, hr, List.isEmpty_iff]

/-- Helper: one step emits as `en_final` exactly the previously pending
fragment when its text is non-empty, and nothing otherwise. -/
theorem wsStep_finals (tr : Str → Str) (st : WsState) (c : Chunk) :
    (wsStep tr st c).finals = st.pending.toList.filter (fun f => !f.text.isEmpty) :=
  (promote_out tr st).1

/-- Helper: one step forwards to the window buffer exactly the fragments
it emits as `en_final`. -/
theorem wsStep_adds (tr : Str → Str) (st : WsState) (c : Chunk) :
    (wsStep tr st c).adds = (wsStep tr st c).finals := rfl

/-- Helper: after one step the pending slot holds exactly the new chunk's
`en_partial` fragment. -/
theorem wsStep_pending (tr : Str → Str) (st : WsState) (c : Chunk) :
    (wsStep tr st c).state.pending = some (wsStep tr st c).draft := rfl

/-- Helper: every chunk consumes one sequence number. -/
theorem wsStep_seq (tr : Str → Str) (st : WsState) (c : Chunk) :
    (wsStep tr st c).state.seq = st.seq + 1 := rfl

/-- Helper: the timeline cursor moves to the previous pending fragment's
end exactly when that fragment's text is non-empty. -/
theorem wsStep_timeline (tr : Str → Str) (st : WsState) (c : Chunk) :
    (wsStep tr st c).state.timeline =
      (match st.pending with
        | some p => if p.text = [] then st.timeline else p.t1
        | none => st.timeline) :=
  (promote_out tr st).2.2.2

/-- Helper: the new `en_partial` fragment carries the chunk's local span
mapped through the (just advanced) timeline cursor, rounded by `r2`, and
the `clean_en`-normalized text. -/
theorem wsStep_draft (tr : Str → Str) (st : WsState) (c : Chunk) :
    (wsStep tr st c).draft =
      ⟨st.seq, r2 ((wsStep tr st c).state.timeline + (segSpan c.segs).1),
        r2 ((wsStep tr st c).state.timeline + (segSpan c.segs).2),
        clean_en (pyStrip c.text)⟩ := rfl

/-- Helper: `wsRun` output on a cons, fieldwise (finals). -/
theorem wsRun_cons_finals (tr : Str → Str) (st : WsState) (c : Chunk) (cs : List Chunk) :
    (wsRun tr st (c :: cs)).finals =
      (wsStep tr st c).finals ++ (wsRun tr (wsStep tr st c).state cs).finals := rfl

/-- Helper: `wsRun` output on a cons, fieldwise (adds). -/
theorem wsRun_cons_adds (tr : Str → Str) (st : WsState) (c : Chunk) (cs : List Chunk) :
    (wsRun tr st (c :: cs)).adds =
      (wsStep tr st c).adds ++ (wsRun tr (wsStep tr st c).state cs).adds := rfl

/-- Helper: `wsRun` output on a cons, fieldwise (drafts). -/
theorem wsRun_cons_drafts (tr : Str → Str) (st : WsState) (c : Chunk) (cs : List Chunk) :
    (wsRun tr st (c :: cs)).drafts =
      (wsStep tr st c).draft :: (wsRun tr (wsStep tr st c).state cs).drafts := rfl

/-- Helper: `wsRun` output on a cons, fieldwise (final state). -/
theorem wsRun_cons_state (tr : Str → Str) (st : WsState) (c : Chunk) (cs : List Chunk) :
    (wsRun tr st (c :: cs)).state = (wsRun tr (wsStep tr st c).state cs).state := rfl

/-- Helper: over a whole run, the `en_final` emissions are exactly the
non-empty-text members of (initial pending followed by the drafts) save
the last still-pending one; buffer additions coincide with the finals; the
final pending slot holds the last draft; and the sequence counter advances
by the number of chunks. -/
theorem wsRun_spec (tr : Str → Str) (cs : List Chunk) :
    ∀ st : WsState,
      (wsRun tr st cs).finals
          = ((st.pending.toList ++ (wsRun tr st cs).drafts).dropLast).filter
              (fun f => !f.text.isEmpty) ∧
      (wsRun tr st cs).adds = (wsRun tr st cs).finals ∧
      (wsRun tr st cs).state.pending
          = (st.pending.toList ++ (wsRun tr st cs).drafts).getLast? ∧
      (wsRun tr st cs).state.seq = st.seq + cs.length := by
  induction cs with
  | nil =>
    intro st
    cases hp : st.pending <;> simp [wsRun, hp]
  | cons c cs ih =>
    intro st
    obtain ⟨ih1, ih2, ih3, ih4⟩ := ih (wsStep tr st c).state
    rw [wsStep_pending tr st c] at ih1 ih3
    simp only [Option.toList_some, List.singleton_append] at ih1 ih3
    refine ⟨?_, ?_, ?_, ?_⟩
    · rw [wsRun_cons_finals, wsRun_cons_drafts, wsStep_finals, ih1,
        List.dropLast_append_cons, List.filter_append]
    · rw [wsRun_cons_adds, wsRun_cons_finals, wsStep_adds, ih2]
    · rw [wsRun_cons_state, wsRun_cons_drafts, ih3, List.getLast?_append_cons]
    · rw [wsRun_cons_state, ih4, wsStep_seq]
      simp only [List.length_cons]
      omega

/-- Helper: the disconnect handler forwards to the window buffer exactly
the still-pending fragment when its text is non-empty. -/
theorem wsFinish_adds (tr : Str → Str) (st : WsState) :
    (wsFinish tr st).1 = st.pending.toList.filter (fun f => !f.text.isEmpty) := by
  cases hp : st.pending with
  | none => by_cases hb : st.buffer.en_parts = [] <;> simp [wsFinish, hp, hb]
  | some p =>
    by_cases ht : p.text = []
    · by_cases hb : st.buffer.en_parts = [] <;> simp [wsFinish, hp, ht, hb]
    · by_cases hb : (st.buffer.add p.t0 p.t1 p.text).en_parts = [] <;>
        simp [wsFinish, hp, ht, hb, List.isEmpty_iff]

/-- Helper: filtering the initial segment and the optional last element
separately is filtering the whole list. -/
theorem filter_dropLast_getLast {α : Type} (l : List α) (p : α → Bool) :
    l.dropLast.filter p ++ (l.getLast?.toList).filter p = l.filter p := by
  rcases eq_or_ne l [] with rfl | h
  · simp
  · rw [List.getLast?_eq_getLast_of_ne_nil h]
    simp only [Option.toList_some]
    rw [← List.filter_append, List.dropLast_append_getLast h]

/-- C3: on the websocket ingestion path at most one fragment is pending at
a time (the `pending` slot of the state); on each chunk arrival the
previously pending fragment is emitted as exactly one `en_final` event and
forwarded into the window buffer precisely when its text is non-empty,
before the new chunk becomes the pending fragment; an empty-text pending
fragment still occupies the slot and consumes its sequence number but is
never forwarded nor emitted; and over a whole run followed by the
disconnect handler, each fragment with non-empty text is forwarded into
the window buffer exactly once — on the next chunk's arrival or at
termination, never both. -/
theorem claim_C3_promotion (tr : Str → Str) (cs : List Chunk) :
    (∀ (st : WsState) (c : Chunk),
        (wsStep tr st c).finals
            = st.pending.toList.filter (fun f => !f.text.isEmpty) ∧
        (wsStep tr st c).adds = (wsStep tr st c).finals ∧
        (wsStep tr st c).state.pending = some (wsStep tr st c).draft ∧
        (wsStep tr st c).state.seq = st.seq + 1) ∧
    (wsRun tr wsInit cs).finals
        = ((wsRun tr wsInit cs).drafts.dropLast).filter (fun f => !f.text.isEmpty) ∧
    (wsRun tr wsInit cs).adds ++ (wsFinish tr (wsRun tr wsInit cs).state).1
        = (wsRun tr wsInit cs).drafts.filter (fun f => !f.text.isEmpty) ∧
    (wsRun tr wsInit cs).state.pending = (wsRun tr wsInit cs).drafts.getLast? ∧
    (wsRun tr wsInit cs).state.seq = 1 + cs.length := by
  obtain ⟨h1, h2, h3, h4⟩ := wsRun_spec tr cs wsInit
  have hnone : (wsInit.pending.toList : List Frag) = [] := rfl
  rw [hnone, List.nil_append] at h1 h3
  refine ⟨fun st c => ⟨wsStep_finals tr st c, wsStep_adds tr st c,
    wsStep_pending tr st c, wsStep_seq tr st c⟩, h1, ?_, h3, h4⟩
  rw [h2, h1, wsFinish_adds, h3, filter_dropLast_getLast]

/-- Counterexample to C4: after a chunk whose recognized segments span
`(0, 2)` but whose text is empty, the pending fragment is
`⟨1, 0.0, 2.0, ""⟩`; on the next chunk's arrival the timeline cursor stays
at `0.0` — it is **not** advanced to the previous pending fragment's
global end `2.0` (`app/main.py` line 266 runs only under
`if pending and pending["text_en"]`). -/
theorem claim_C4_counterexample :
    (wsStep (fun _ => []) wsInit ⟨[], [(0, 2)]⟩).state.pending = some ⟨1, 0, 2, []⟩ ∧
    (wsStep (fun _ => [])
        (wsStep (fun _ => []) wsInit ⟨[], [(0, 2)]⟩).state
        ⟨['h', 'i'], [(0, 1)]⟩).state.timeline = 0 ∧
    (0 : ℚ) ≠ 2 := by
  refine ⟨?_, rfl, by norm_num⟩
  have h : (wsStep (fun _ => []) wsInit ⟨[], [(0, 2)]⟩).state.pending
      = some ⟨1, r2 (0 + 0), r2 (0 + 2), []⟩ := rfl
  rw [h]
  norm_num [r2, round_eq]

/-- C4 amended: on the websocket path the timeline cursor is advanced to
the previous pending fragment's global end exactly when that fragment's
text is non-empty (otherwise it is left unchanged), immediately before
mapping the new chunk's local offsets; the new chunk's emitted global
offsets are `r2 (cursor + local_start)` and `r2 (cursor + local_end)` for
the just-advanced cursor; and a chunk whose recognized-segment list is
empty uses local offsets `0.0` and contributes no cursor advance — after
it, processing the next chunk leaves the cursor where it was. -/
theorem claim_C4_amended (tr : Str → Str) (st : WsState) (c : Chunk)
    (hfix : r2 st.timeline = st.timeline ∧ ∀ p, st.pending = some p → r2 p.t1 = p.t1) :
    (wsStep tr st c).state.timeline =
      (match st.pending with
        | some p => if p.text = [] then st.timeline else p.t1
        | none => st.timeline) ∧
    (wsStep tr st c).draft =
      ⟨st.seq, r2 ((wsStep tr st c).state.timeline + (segSpan c.segs).1),
        r2 ((wsStep tr st c).state.timeline + (segSpan c.segs).2),
        clean_en (pyStrip c.text)⟩ ∧
    (c.segs = [] → ∀ c' : Chunk,
      (wsStep tr (wsStep tr st c).state c').state.timeline
        = (wsStep tr st c).state.timeline) := by
  refine ⟨wsStep_timeline tr st c, wsStep_draft tr st c, ?_⟩
  intro hsegs c'
  have htl : r2 ((wsStep tr st c).state.timeline) = (wsStep tr st c).state.timeline := by
    rw [wsStep_timeline]
    cases hp : st.pending with
    | none => exact hfix.1
    | some p =>
      show r2 (if p.text = [] then st.timeline else p.t1)
          = (if p.text = [] then st.timeline else p.t1)
      by_cases hpt : p.text = []
      · rw [if_pos hpt]
        exact hfix.1
      · rw [if_neg hpt]
        exact hfix.2 p hp
  have hd : (wsStep tr (wsStep tr st c).state c').state.timeline
      = (if (wsStep tr st c).draft.text = [] then (wsStep tr st c).state.timeline
          else (wsStep tr st c).draft.t1) := by
    rw [wsStep_timeline tr (wsStep tr st c).state c', wsStep_pending tr st c]
  rw [hd]
  by_cases hdt : (wsStep tr st c).draft.text = []
  · rw [if_pos hdt]
  · rw [if_neg hdt]
    have ht1 : (wsStep tr st c).draft.t1
        = r2 ((wsStep tr st c).state.timeline + (segSpan c.segs).2) := rfl
    rw [ht1, hsegs]
    show r2 ((wsStep tr st c).state.timeline + 0) = _
    rw [add_zero, htl]

/-- Witness for the amended C4: from the initial state, a chunk with text
but no recognized segments is processed, and processing a following chunk
leaves the timeline cursor unchanged. -/
theorem claim_C4_amended_witness :
    (wsStep (fun _ => [])
        (wsStep (fun _ => []) wsInit ⟨['h', 'i'], []⟩).state
        ⟨['y', 'o'], [(0, 3)]⟩).state.timeline
      = (wsStep (fun _ => []) wsInit ⟨['h', 'i'], []⟩).state.timeline :=
  (claim_C4_amended (fun _ => []) wsInit ⟨['h', 'i'], []⟩
    ⟨by norm_num [wsInit, r2, round_eq], by intro p h; simp [wsInit] at h⟩).2.2
    rfl ⟨['y', 'o'], [(0, 3)]⟩

/-! ## Theorems: `clean_en` normalization (claim C10) -/

/-- Helper: the head of a prefix is the head of the whole list. -/
theorem head_of_pre {α : Type} {l m : List α} (h : l <+: m) :
    ∀ x, l.head? = some x → m.head? = some x := by
  obtain ⟨u, rfl⟩ := h
  intro x hx
  cases l with
  | nil => simp at hx
  | cons a t =>
    simp only [List.head?_cons, Option.some.injEq] at hx
    simp [List.cons_append, List.head?_cons, hx]

/-- Helper: the first character surviving `dropWhile` fails the predicate. -/
theorem head_dropWhile (p : Char → Bool) :
    ∀ (l : Str) (x : Char), (l.dropWhile p).head? = some x → p x = false := by
  intro l
  induction l with
  | nil => intro x hx; simp at hx
  | cons c rest ih =>
    intro x hx
    rw [List.dropWhile_cons] at hx
    by_cases hc : p c = true
    · rw [if_pos hc] at hx
      exact ih x hx
    · rw [if_neg hc] at hx
      simp only [List.head?_cons, Option.some.injEq] at hx
      subst hx
      simp only [Bool.not_eq_true] at hc
      exact hc

/-- Helper: `stripR` is a prefix of its argument. -/
theorem stripR_pre (s : Str) : stripR s <+: s := by
  have h := (List.dropWhile_suffix (l := s.reverse) isPyWs).reverse
  rwa [List.reverse_reverse] at h

/-- Helper: `pyStrip` yields a sublist. -/
theorem pyStrip_sublist (s : Str) : List.Sublist (pyStrip s) s := by
  have h1 : List.Sublist (stripL s) s := (List.dropWhile_suffix isPyWs).sublist
  have h2 : List.Sublist (pyStrip s) (stripL s) := (stripR_pre (stripL s)).sublist
  exact h2.trans h1

/-- Helper: `pyStrip` preserves adjacency constraints. -/
theorem pyStrip_chain {R : Char → Char → Prop} {s : Str} (h : List.Chain' R s) :
    List.Chain' R (pyStrip s) :=
  List.Chain'.prefix (h.suffix (List.dropWhile_suffix isPyWs)) (stripR_pre (stripL s))

/-- Helper: the stripped string does not start in whitespace. -/
theorem pyStrip_head (s : Str) : ∀ x, (pyStrip s).head? = some x → isPyWs x = false := by
  intro x hx
  exact head_dropWhile isPyWs s x (head_of_pre (stripR_pre (stripL s)) x hx)

/-- Helper: the stripped string does not end in whitespace. -/
theorem pyStrip_last (s : Str) : ∀ x, (pyStrip s).getLast? = some x → isPyWs x = false := by
  intro x hx
  rw [pyStrip, stripR, List.getLast?_reverse] at hx
  exact head_dropWhile isPyWs (stripL s).reverse x hx

/-- Helper: after `collapseWs` every whitespace character is a space, no
two whitespace characters are adjacent, and a whitespace head can only
come from a whitespace head of the input. -/
theorem collapseWs_spec : ∀ s : Str,
    (∀ c ∈ collapseWs s, isPyWs c = true → c = ' ') ∧
    List.Chain' noWsPair (collapseWs s) ∧
    (∀ x, (collapseWs s).head? = some x → isPyWs x = true →
      ∃ y, s.head? = some y ∧ isPyWs y = true)
  | [] => by
    refine ⟨?_, ?_, ?_⟩ <;> simp [collapseWs]
  | [c] => by
    by_cases hc : isPyWs c = true
    · refine ⟨?_, ?_, ?_⟩
      · intro x hx _
        simp [collapseWs, hc] at hx
        exact hx
      · simp [collapseWs, hc]
      · intro x _ _
        exact ⟨c, rfl, hc⟩
    · refine ⟨?_, ?_, ?_⟩
      · intro x hx hws
        simp [collapseWs, hc] at hx
        subst hx
        exact absurd hws hc
      · simp [collapseWs, hc]
      · intro x hx hws
        simp [collapseWs, hc] at hx
        subst hx
        exact absurd hws hc
  | c :: d :: rest => by
    have ih := collapseWs_spec (d :: rest)
    by_cases hcd : (isPyWs c && isPyWs d) = true
    · have he : collapseWs (c :: d :: rest) = collapseWs (d :: rest) := by
        rw [collapseWs, if_pos hcd]
      obtain ⟨hc, _⟩ := Bool.and_eq_true _ _ |>.mp hcd
      refine ⟨?_, ?_, ?_⟩
      · rw [he]; exact ih.1
      · rw [he]; exact ih.2.1
      · intro x _ _
        exact ⟨c, rfl, hc⟩
    · have he : collapseWs (c :: d :: rest)
          = (if isPyWs c then ' ' else c) :: collapseWs (d :: rest) := by
        rw [collapseWs, if_neg hcd]
      refine ⟨?_, ?_, ?_⟩
      · intro x hx hws
        rw [he, List.mem_cons] at hx
        rcases hx with rfl | hx
        · by_cases hc : isPyWs c = true
          · rw [if_pos hc]
          · rw [if_neg hc] at hws
            exact absurd hws hc
        · exact ih.1 x hx hws
      · rw [he]
        refine List.chain'_cons'.mpr ⟨?_, ih.2.1⟩
        intro y hy
        rintro ⟨hwsif, hwsy⟩
        obtain ⟨z, hz, hwz⟩ := ih.2.2 y (Option.mem_def.mp hy) hwsy
        simp only [List.head?_cons, Option.some.injEq] at hz
        subst hz
        by_cases hc : isPyWs c = true
        · exact hcd (by simp [hc, hwz])
        · rw [if_neg hc] at hwsif
          exact hc hwsif
      · intro x hx hws
        rw [he] at hx
        simp only [List.head?_cons, Option.some.injEq] at hx
        subst hx
        by_cases hc : isPyWs c = true
        · exact ⟨c, rfl, hc⟩
        · rw [if_neg hc] at hws
          exact absurd hws hc

/-- Helper: nothing satisfying the predicate survives at the start of
`dropWhile`. -/
theorem takeWhile_dropWhile_nil (p : Char → Bool) :
    ∀ l : Str, (l.dropWhile p).takeWhile p = [] := by
  intro l
  induction l with
  | nil => simp
  | cons c rest ih =>
    rw [List.dropWhile_cons]
    by_cases hc : p c = true
    · rw [if_pos hc]; exact ih
    · rw [if_neg hc, List.takeWhile_cons]
      simp only [Bool.not_eq_true] at hc
      rw [hc]
      rfl

/-- Helper: a string whose last character is not a dot has no trailing
dots. -/
theorem trailDots_zero (l : Str) (h : ∀ x ∈ l.getLast?, ¬ x = '.') : trailDots l = 0 := by
  rw [trailDots]
  cases hr : l.reverse with
  | nil => simp
  | cons c t =>
    have hlast : l.getLast? = some c := by
      have hg := List.getLast?_reverse l.reverse
      rw [List.reverse_reverse] at hg
      rw [hg, hr]
      rfl
    have hcd : ¬ c = '.' := h c hlast
    rw [List.takeWhile_cons]
    simp [hcd]

/-- Helper: appending a dot adds one to the trailing-dot count. -/
theorem trailDots_concat_dot (l : Str) : trailDots (l ++ ['.']) = trailDots l + 1 := by
  rw [trailDots, trailDots, List.reverse_append]
  simp [List.takeWhile_cons]

/-- Helper: the two possible outcomes of `squashDots`, each with at most
two trailing dots. -/
theorem squashDots_spec (t : Str) :
    (squashDots t = t ∧ trailDots t ≤ 2) ∨
    ((t.reverse.dropWhile (fun c => c = '.')).reverse <+: t ∧
      squashDots t = (t.reverse.dropWhile (fun c => c = '.')).reverse ++ ['.'] ∧
      trailDots (squashDots t) ≤ 2) := by
  by_cases h : 3 ≤ trailDots t
  · right
    have hpre : (t.reverse.dropWhile (fun c => c = '.')).reverse <+: t := by
      have h2 := (List.dropWhile_suffix (l := t.reverse) (fun c => decide (c = '.'))).reverse
      rwa [List.reverse_reverse] at h2
    have he : squashDots t = (t.reverse.dropWhile (fun c => c = '.')).reverse ++ ['.'] := by
      rw [squashDots, if_pos h]
    refine ⟨hpre, he, ?_⟩
    rw [he, trailDots_concat_dot]
    have h0 : trailDots ((t.reverse.dropWhile (fun c => c = '.')).reverse) = 0 := by
      rw [trailDots, List.reverse_reverse, takeWhile_dropWhile_nil]
      rfl
    omega
  · left
    exact ⟨by rw [squashDots, if_neg h], by omega⟩

/-- Helper: a string ending in a freshly appended dot has terminal
punctuation. -/
theorem endsPunct_concat_dot (l : Str) : endsPunct (l ++ ['.']) = true := by
  rw [endsPunct, List.getLast?_concat]
  rfl

/-- Helper: without terminal punctuation the last character is not a dot. -/
theorem not_endsPunct_last_ne_dot (l : Str) (h : ¬ endsPunct l = true) :
    ∀ x ∈ l.getLast?, ¬ x = '.' := by
  intro x hx hdot
  subst hdot
  apply h
  rw [endsPunct, Option.mem_def.mp hx]
  rfl

/-- Helper: appending a dot preserves the whitespace discipline. -/
theorem concat_dot_part (l : Str)
    (p1 : ∀ c ∈ l, isPyWs c = true → c = ' ')
    (p2 : List.Chain' noWsPair l)
    (p3 : ∀ x ∈ l.head?, isPyWs x = false) :
    (∀ c ∈ l ++ ['.'], isPyWs c = true → c = ' ') ∧
    List.Chain' noWsPair (l ++ ['.']) ∧
    (∀ x ∈ (l ++ ['.']).head?, isPyWs x = false) ∧
    (∀ x ∈ (l ++ ['.']).getLast?, isPyWs x = false) := by
  have hdot : isPyWs '.' = false := rfl
  refine ⟨?_, ?_, ?_, ?_⟩
  · intro c hc hws
    rw [List.mem_append] at hc
    rcases hc with hc | hc
    · exact p1 c hc hws
    · rw [List.mem_singleton] at hc
      subst hc
      rw [hdot] at hws
      cases hws
  · refine List.chain'_append.mpr ⟨p2, List.chain'_singleton _, ?_⟩
    intro x _ y hy
    simp only [List.head?_cons, Option.mem_def, Option.some.injEq] at hy
    subst hy
    rintro ⟨_, hws⟩
    rw [hdot] at hws
    cases hws
  · intro x hx
    cases hl : l with
    | nil =>
      rw [hl] at hx
      simp only [List.nil_append, List.head?_cons, Option.mem_def, Option.some.injEq] at hx
      subst hx
      exact hdot
    | cons a u =>
      rw [hl] at hx
      simp only [List.cons_append, List.head?_cons, Option.mem_def, Option.some.injEq] at hx
      subst hx
      have : l.head? = some a := by rw [hl]; rfl
      exact p3 a (Option.mem_def.mpr this)
  · intro x hx
    rw [List.getLast?_concat, Option.mem_def, Option.some.injEq] at hx
    subst hx
    exact hdot

/-- Helper: the full set of observable normalization properties of
`clean_en`: whitespace runs are collapsed to single spaces (every
whitespace character in the output is a space and no two are adjacent),
the output is trimmed (it neither starts nor ends in whitespace), it never
ends in three or more dots, and an output longer than 40 characters ends
in terminal punctuation. -/
theorem clean_en_spec (s : Str) :
    (∀ c ∈ clean_en s, isPyWs c = true → c = ' ') ∧
    List.Chain' noWsPair (clean_en s) ∧
    (∀ x ∈ (clean_en s).head?, isPyWs x = false) ∧
    (∀ x ∈ (clean_en s).getLast?, isPyWs x = false) ∧
    trailDots (clean_en s) ≤ 2 ∧
    (40 < (clean_en s).length → endsPunct (clean_en s) = true) := by
  by_cases hs : s = []
  · subst hs
    refine ⟨?_, ?_, ?_, ?_, ?_, ?_⟩ <;> simp [clean_en, trailDots]
  · rw [clean_en, if_neg hs]
    obtain ⟨m1, m2, _⟩ := collapseWs_spec s
    have t1 : ∀ c ∈ pyStrip (collapseWs s), isPyWs c = true → c = ' ' :=
      fun c hc => m1 c ((pyStrip_sublist (collapseWs s)).subset hc)
    have t2 : List.Chain' noWsPair (pyStrip (collapseWs s)) := pyStrip_chain m2
    have t3 : ∀ x ∈ (pyStrip (collapseWs s)).head?, isPyWs x = false :=
      fun x hx => pyStrip_head (collapseWs s) x (Option.mem_def.mp hx)
    have t4 : ∀ x ∈ (pyStrip (collapseWs s)).getLast?, isPyWs x = false :=
      fun x hx => pyStrip_last (collapseWs s) x (Option.mem_def.mp hx)
    have hsq : (∀ c ∈ squashDots (pyStrip (collapseWs s)), isPyWs c = true → c = ' ') ∧
        List.Chain' noWsPair (squashDots (pyStrip (collapseWs s))) ∧
        (∀ x ∈ (squashDots (pyStrip (collapseWs s))).head?, isPyWs x = false) ∧
        (∀ x ∈ (squashDots (pyStrip (collapseWs s))).getLast?, isPyWs x = false) ∧
        trailDots (squashDots (pyStrip (collapseWs s))) ≤ 2 := by
      rcases squashDots_spec (pyStrip (collapseWs s)) with ⟨he, htr⟩ | ⟨hpre, he, htr⟩
      · rw [he]
        exact ⟨t1, t2, t3, t4, he ▸ htr⟩
      · have q1 : ∀ c ∈ ((pyStrip (collapseWs s)).reverse.dropWhile
            (fun c => c = '.')).reverse, isPyWs c = true → c = ' ' :=
          fun c hc => t1 c (hpre.sublist.subset hc)
        have q2 := List.Chain'.prefix t2 hpre
        have q3 : ∀ x ∈ (((pyStrip (collapseWs s)).reverse.dropWhile
            (fun c => c = '.')).reverse).head?, isPyWs x = false :=
          fun x hx =>
            t3 x (Option.mem_def.mpr (head_of_pre hpre x (Option.mem_def.mp hx)))
        obtain ⟨r1, r2, r3, r4⟩ := concat_dot_part _ q1 q2 q3
        rw [he]
        exact ⟨r1, r2, r3, r4, he ▸ htr⟩
    obtain ⟨q1, q2, q3, q4, qtr⟩ := hsq
    by_cases hf : 40 < (squashDots (pyStrip (collapseWs s))).length ∧
        ¬ endsPunct (squashDots (pyStrip (collapseWs s))) = true
    · rw [dotIfLong, if_pos hf]
      obtain ⟨w1, w2, w3, w4⟩ := concat_dot_part _ q1 q2 q3
      refine ⟨w1, w2, w3, w4, ?_, fun _ => endsPunct_concat_dot _⟩
      have h0 : trailDots (squashDots (pyStrip (collapseWs s))) = 0 :=
        trailDots_zero _ (not_endsPunct_last_ne_dot _ hf.2)
      rw [trailDots_concat_dot, h0]
      omega
    · rw [dotIfLong, if_neg hf]
      refine ⟨q1, q2, q3, q4, qtr, ?_⟩
      intro hlen
      by_contra hep
      exact hf ⟨hlen, hep⟩

/-- C10: on the websocket ingestion path every chunk's recognized text is
normalized by `clean_en` before being emitted as the `en_partial` fragment
or (later, as the pending fragment) forwarded into the window buffer;
and `clean_en` output has whitespace runs collapsed to single spaces, is
trimmed at both ends, never ends in a run of three or more dots, and —
whenever it is longer than 40 characters — ends in `.`, `?` or `!`, the
same trailing-period discipline `flush()` enforces. -/
theorem claim_C10_normalization (tr : Str → Str) :
    (∀ s : Str,
      (∀ c ∈ clean_en s, isPyWs c = true → c = ' ') ∧
      List.Chain' noWsPair (clean_en s) ∧
      (∀ x ∈ (clean_en s).head?, isPyWs x = false) ∧
      (∀ x ∈ (clean_en s).getLast?, isPyWs x = false) ∧
      trailDots (clean_en s) ≤ 2 ∧
      (40 < (clean_en s).length → endsPunct (clean_en s) = true)) ∧
    (∀ (st : WsState) (c : Chunk),
      (wsStep tr st c).draft.text = clean_en (pyStrip c.text) ∧
      ∀ f ∈ (wsStep tr st c).adds, st.pending = some f) ∧
    (∀ (tl : ℚ) (buf : CaptionBuffer) (c : Chunk),
      (httpStep tr tl buf c).evText = clean_en (pyStrip c.text) ∧
      (httpStep tr tl buf c).buffer =
        (if (buf.add (tl + (segSpan c.segs).1) (tl + (segSpan c.segs).2)
              (clean_en (pyStrip c.text))).ready
          then (buf.add (tl + (segSpan c.segs).1) (tl + (segSpan c.segs).2)
              (clean_en (pyStrip c.text))).flush.2
          else buf.add (tl + (segSpan c.segs).1) (tl + (segSpan c.segs).2)
              (clean_en (pyStrip c.text)))) := by
  refine ⟨fun s => clean_en_spec s, fun st c => ⟨rfl, ?_⟩, fun tl buf c => ⟨?_, ?_⟩⟩
  case refine_2 =>
    rw [httpStep]
    split <;> rfl
  case refine_3 =>
    rw [httpStep]
    split
    · rfl
    · rfl
  intro f hf
  rw [wsStep_adds, wsStep_finals] at hf
  have h1 := (List.mem_filter.mp hf).1
  cases hp : st.pending with
  | none =>
    rw [hp] at h1
    simp at h1
  | some p =>
    rw [hp] at h1
    simp only [Option.toList_some, List.mem_singleton] at h1
    subst h1
    rfl

/-- Witness for C10: a 41-character text without terminal punctuation
leaves `clean_en` with a trailing period. -/
theorem claim_C10_normalization_witness :
    endsPunct (clean_en (List.replicate 41 'a')) = true :=
  ((claim_C10_normalization (fun _ => [])).1 (List.replicate 41 'a')).2.2.2.2.2
    (by decide)

/-! ## Theorems: transcript render/re-parse round trip (claim C9) -/

/-- Helper: the value of a digit character. -/
theorem digitChar_toNat (n : ℕ) (h : n < 10) : (digitChar n).toNat = 48 + n := by
  interval_cases n <;> rfl

/-- Helper: digit characters are digits. -/
theorem isDigitC_digitChar (n : ℕ) (h : n < 10) : isDigitC (digitChar n) = true := by
  interval_cases n <;> rfl

/-- Helper: with enough fuel, `toDigitsAux` produces a non-empty string of
digit characters whose value is the input. -/
theorem toDigitsAux_spec :
    ∀ fuel n : ℕ, n < fuel →
      (∀ c ∈ toDigitsAux fuel n, isDigitC c = true) ∧
      toDigitsAux fuel n ≠ [] ∧
      digitsToNat (toDigitsAux fuel n) = n := by
  intro fuel
  induction fuel with
  | zero => intro n h; omega
  | succ fuel ih =>
    intro n h
    by_cases h10 : n < 10
    · have he : toDigitsAux (fuel + 1) n = [digitChar n] := by
        rw [toDigitsAux, if_pos h10]
      rw [he]
      refine ⟨?_, by simp, ?_⟩
      · intro c hc
        rw [List.mem_singleton] at hc
        subst hc
        exact isDigitC_digitChar n h10
      · show 0 * 10 + ((digitChar n).toNat - 48) = n
        rw [digitChar_toNat n h10]
        omega
    · have he : toDigitsAux (fuel + 1) n
          = toDigitsAux fuel (n / 10) ++ [digitChar (n % 10)] := by
        rw [toDigitsAux, if_neg h10]
      have hdiv : n / 10 < fuel := by
        have := Nat.div_lt_self (show 0 < n by omega) (show 1 < 10 by norm_num)
        omega
      have hrec := ih (n / 10) hdiv
      rw [he]
      have hm : n % 10 < 10 := Nat.mod_lt _ (by norm_num)
      refine ⟨?_, by simp, ?_⟩
      · intro c hc
        rw [List.mem_append] at hc
        rcases hc with hc | hc
        · exact hrec.1 c hc
        · rw [List.mem_singleton] at hc
          subst hc
          exact isDigitC_digitChar _ hm
      · rw [digitsToNat, List.foldl_append]
        show (digitsToNat (toDigitsAux fuel (n / 10))) * 10 + ((digitChar (n % 10)).toNat - 48) = n
        rw [hrec.2.2, digitChar_toNat _ hm]
        omega

/-- Helper: `natToDigits` produces a non-empty digit string whose value is
the input. -/
theorem natToDigits_spec (n : ℕ) :
    (∀ c ∈ natToDigits n, isDigitC c = true) ∧
    natToDigits n ≠ [] ∧
    digitsToNat (natToDigits n) = n :=
  toDigitsAux_spec (n + 1) n (Nat.lt_succ_self n)

/-- Helper: `takeWhile`/`dropWhile` split an all-satisfying chunk followed
by a failing element. -/
theorem takeWhile_append_stop (p : Char → Bool) :
    ∀ (xs : Str) (y : Char) (ys : Str), (∀ c ∈ xs, p c = true) → p y = false →
      (xs ++ y :: ys).takeWhile p = xs ∧ (xs ++ y :: ys).dropWhile p = y :: ys := by
  intro xs
  induction xs with
  | nil =>
    intro y ys _ hy
    rw [List.nil_append]
    constructor
    · rw [List.takeWhile_cons, hy]
      rfl
    · rw [List.dropWhile_cons, hy]
      rfl
  | cons a t ih =>
    intro y ys hall hy
    have ha : p a = true := hall a (by simp)
    have hrec := ih y ys (fun c hc => hall c (by simp [hc])) hy
    rw [List.cons_append]
    constructor
    · rw [List.takeWhile_cons, ha]
      simp only [if_true]
      rw [hrec.1]
    · rw [List.dropWhile_cons, ha]
      simp only [if_true]
      exact hrec.2

/-- Helper: `parseF2Pos` on a digit string, a dot and two digits. -/
theorem parseF2Pos_split (ds : Str) (d1 d2 : Char)
    (hds : ∀ c ∈ ds, isDigitC c = true) (hne : ds ≠ [])
    (h1 : isDigitC d1 = true) (h2 : isDigitC d2 = true) :
    parseF2Pos (ds ++ '.' :: [d1, d2])
      = some ((digitsToNat ds : ℚ)
          + (((d1.toNat - 48) * 10 + (d2.toNat - 48) : ℕ) : ℚ) / 100) := by
  have hdot : isDigitC '.' = false := rfl
  obtain ⟨htake, hdrop⟩ := takeWhile_append_stop isDigitC ds '.' [d1, d2] hds hdot
  simp only [parseF2Pos]
  rw [htake, hdrop]
  simp [hne, h1, h2]

/-- Helper: the shape of `fmt2`. -/
theorem fmt2_eq (x : ℚ) :
    fmt2 x = (if x < 0 then ['-'] else [])
      ++ natToDigits ((round (|x| * 100)).toNat / 100)
      ++ '.' :: [digitChar ((round (|x| * 100)).toNat % 100 / 10),
                 digitChar ((round (|x| * 100)).toNat % 10)] := by
  rw [fmt2]
  by_cases hx : x < 0 <;> simp [hx]

/-- Helper: a digit character is not a minus sign. -/
theorem digit_ne_dash (c : Char) (h : isDigitC c = true) : ¬ c = '-' := by
  intro hc
  subst hc
  exact absurd h (by decide)

/-- Helper: `parseFixed2` inverts `fmt2`, recovering the render-time
rounding `fmtVal`. -/
theorem parseFixed2_fmt2 (x : ℚ) : parseFixed2 (fmt2 x) = some (fmtVal x) := by
  have hm1 : ((round (|x| * 100)).toNat % 100 / 10) < 10 := by omega
  have hm2 : ((round (|x| * 100)).toNat % 10) < 10 := by omega
  obtain ⟨hdig, hne, hval⟩ := natToDigits_spec ((round (|x| * 100)).toNat / 100)
  have hbody := parseF2Pos_split (natToDigits ((round (|x| * 100)).toNat / 100))
    (digitChar ((round (|x| * 100)).toNat % 100 / 10))
    (digitChar ((round (|x| * 100)).toNat % 10))
    hdig hne (isDigitC_digitChar _ hm1) (isDigitC_digitChar _ hm2)
  have hvalq : ((digitsToNat (natToDigits ((round (|x| * 100)).toNat / 100)) : ℚ)
      + ((((digitChar ((round (|x| * 100)).toNat % 100 / 10)).toNat - 48) * 10
          + ((digitChar ((round (|x| * 100)).toNat % 10)).toNat - 48) : ℕ) : ℚ) / 100)
      = (((round (|x| * 100)).toNat : ℕ) : ℚ) / 100 := by
    rw [hval, digitChar_toNat _ hm1, digitChar_toNat _ hm2]
    have harith : ((48 + (round (|x| * 100)).toNat % 100 / 10 - 48) * 10
        + (48 + (round (|x| * 100)).toNat % 10 - 48) : ℕ)
        = (round (|x| * 100)).toNat % 100 := by omega
    rw [harith]
    have hcast : (100 : ℚ) * (((round (|x| * 100)).toNat / 100 : ℕ) : ℚ)
        + (((round (|x| * 100)).toNat % 100 : ℕ) : ℚ)
        = (((round (|x| * 100)).toNat : ℕ) : ℚ) := by
      exact_mod_cast Nat.div_add_mod ((round (|x| * 100)).toNat) 100
    field_simp
    linarith
  rw [fmt2_eq]
  by_cases hx : x < 0
  · rw [if_pos hx, List.singleton_append, List.cons_append]
    have hred : parseFixed2 ('-' :: (natToDigits ((round (|x| * 100)).toNat / 100)
        ++ '.' :: [digitChar ((round (|x| * 100)).toNat % 100 / 10),
                   digitChar ((round (|x| * 100)).toNat % 10)]))
        = (parseF2Pos (natToDigits ((round (|x| * 100)).toNat / 100)
            ++ '.' :: [digitChar ((round (|x| * 100)).toNat % 100 / 10),
                       digitChar ((round (|x| * 100)).toNat % 10)])).map (fun v => -v) := rfl
    rw [hred, hbody, Option.map_some', hvalq, fmtVal, if_pos hx]
    congr 1
    ring
  · rw [if_neg hx, List.nil_append]
    obtain ⟨a, t, hat⟩ :=
      List.exists_cons_of_ne_nil (l := natToDigits ((round (|x| * 100)).toNat / 100)) hne
    have hda : isDigitC a = true := by
      apply hdig
      rw [hat]
      simp
    rw [hat, List.cons_append]
    have hred : parseFixed2 (a :: (t ++ '.' :: [digitChar ((round (|x| * 100)).toNat % 100 / 10),
        digitChar ((round (|x| * 100)).toNat % 10)]))
        = (if a = '-'
            then (parseF2Pos (t ++ '.' :: [digitChar ((round (|x| * 100)).toNat % 100 / 10),
                digitChar ((round (|x| * 100)).toNat % 10)])).map (fun v => -v)
            else parseF2Pos (a :: (t ++ '.' :: [digitChar ((round (|x| * 100)).toNat % 100 / 10),
                digitChar ((round (|x| * 100)).toNat % 10)]))) := rfl
    rw [hred, if_neg (digit_ne_dash a hda), ← List.cons_append, ← hat, hbody, hvalq,
      fmtVal, if_neg hx]
    congr 1
    ring

/-- Helper: every character of `fmt2 x` is a digit, a dot or a minus
sign. -/
theorem fmt2_chars (x : ℚ) :
    ∀ c ∈ fmt2 x, isDigitC c = true ∨ c = '.' ∨ c = '-' := by
  intro c hc
  rw [fmt2_eq] at hc
  rcases List.mem_append.mp hc with hc | hc
  · rcases List.mem_append.mp hc with hc | hc
    · by_cases hx : x < 0
      · rw [if_pos hx, List.mem_singleton] at hc
        exact Or.inr (Or.inr hc)
      · rw [if_neg hx] at hc
        simp at hc
    · exact Or.inl ((natToDigits_spec _).1 c hc)
  · rcases List.mem_cons.mp hc with rfl | hc
    · exact Or.inr (Or.inl rfl)
    · rcases List.mem_cons.mp hc with rfl | hc
      · exact Or.inl (isDigitC_digitChar _ (by omega))
      · rw [List.mem_singleton] at hc
        subst hc
        exact Or.inl (isDigitC_digitChar _ (by omega))

/-- Helper: `fmt2 x` contains no en-dash, no `s`, and no newline. -/
theorem fmt2_mem_ne (x : ℚ) (c : Char) (hc : c ∈ fmt2 x) :
    ¬ c = '–' ∧ ¬ c = 's' ∧ ¬ c = ')' ∧ ¬ c = '\n' := by
  rcases fmt2_chars x c hc with h | h | h
  · refine ⟨?_, ?_, ?_, ?_⟩ <;> intro he <;> subst he <;> exact absurd h (by decide)
  · subst h
    exact ⟨by decide, by decide, by decide, by decide⟩
  · subst h
    exact ⟨by decide, by decide, by decide, by decide⟩

/-- Helper: `fmt2 x` is non-empty. -/
theorem fmt2_ne_nil (x : ℚ) : fmt2 x ≠ [] := by
  rw [fmt2_eq]
  simp

/-- Helper: `parseHeader` inverts `hdrLine`. -/
theorem parseHeader_hdrLine (i : ℕ) (e : SEntry) :
    parseHeader (hdrLine i e) = some (i, fmtVal e.t0, fmtVal e.t1) := by
  obtain ⟨hdigs, hne, hval⟩ := natToDigits_spec i
  have h0 : parseHeader (hdrLine i e)
      = parseHeader1 (natToDigits i
          ++ ']' :: ' ' :: '(' :: (fmt2 e.t0 ++ '–' :: fmt2 e.t1 ++ ['s', ')'])) := rfl
  obtain ⟨htake1, hdrop1⟩ := takeWhile_append_stop isDigitC (natToDigits i)
    ']' (' ' :: '(' :: (fmt2 e.t0 ++ '–' :: fmt2 e.t1 ++ ['s', ')'])) hdigs rfl
  rw [h0, parseHeader1, htake1, hdrop1, if_neg hne, hval]
  have h2 : ∀ X : Str, parseHeader2 i (']' :: ' ' :: '(' :: X) = parseHeader3 i X :=
    fun _ => rfl
  rw [h2, List.append_assoc (fmt2 e.t0) ('–' :: fmt2 e.t1) (['s', ')'] : Str),
    List.cons_append]
  obtain ⟨htake2, hdrop2⟩ := takeWhile_append_stop (· != '–') (fmt2 e.t0)
    '–' (fmt2 e.t1 ++ ['s', ')'])
    (fun c hc => by
      have := (fmt2_mem_ne e.t0 c hc).1
      simpa using this)
    (by decide)
  rw [parseHeader3, htake2, hdrop2]
  have h3 : ∀ (a : Str) (Y : Str), parseHeader3b i a ('–' :: Y) = parseHeader4 i a Y :=
    fun _ _ => rfl
  rw [h3]
  obtain ⟨htake3, hdrop3⟩ := takeWhile_append_stop (· != 's') (fmt2 e.t1)
    's' [')']
    (fun c hc => by
      have := (fmt2_mem_ne e.t1 c hc).2.1
      simpa using this)
    (by decide)
  rw [parseHeader4, htake3, hdrop3]
  have h4 : parseHeader4b i (fmt2 e.t0) (fmt2 e.t1) ('s' :: [')'])
      = (match parseFixed2 (fmt2 e.t0), parseFixed2 (fmt2 e.t1) with
          | some x, some y => some (i, x, y)
          | _, _ => none) := rfl
  rw [h4, parseFixed2_fmt2, parseFixed2_fmt2]

/-- Helper: `splitNl` never returns the empty list. -/
theorem splitNl_ne_nil : ∀ s : Str, splitNl s ≠ []
  | [] => by simp [splitNl]
  | c :: rest => by
    by_cases hc : c = '\n'
    · simp [splitNl, hc]
    · cases h : splitNl rest with
      | nil => simp [splitNl, hc, h]
      | cons l ls => simp [splitNl, hc, h]

/-- Helper: a newline-free string splits into itself. -/
theorem splitNl_no_nl : ∀ s : Str, '\n' ∉ s → splitNl s = [s]
  | [] => fun _ => rfl
  | c :: rest => fun h => by
    have hc : ¬ c = '\n' := fun hx => h (by rw [hx] at *; exact List.mem_cons_self _ _)
    have hrest := splitNl_no_nl rest (fun hm => h (List.mem_cons_of_mem _ hm))
    simp [splitNl, hc, hrest]

/-- Helper: `splitNl` severs at the first newline. -/
theorem splitNl_append_nl : ∀ (l t : Str), '\n' ∉ l →
    splitNl (l ++ '\n' :: t) = l :: splitNl t
  | [], t => fun _ => by simp [splitNl]
  | c :: l', t => fun h => by
    have hc : ¬ c = '\n' := fun hx => h (by rw [hx] at *; exact List.mem_cons_self _ _)
    have hrec := splitNl_append_nl l' t (fun hm => h (List.mem_cons_of_mem _ hm))
    rw [List.cons_append]
    simp [splitNl, hc, hrec]

/-- Helper: `splitNl` inverts `joinNl` on newline-free lines. -/
theorem splitNl_joinNl : ∀ ls : List Str, ls ≠ [] → (∀ l ∈ ls, '\n' ∉ l) →
    splitNl (joinNl ls) = ls
  | [] => by simp
  | [l] => fun _ h => by
    show splitNl l = [l]
    exact splitNl_no_nl l (h l (by simp))
  | l :: m :: t => fun _ h => by
    have hj : joinNl (l :: m :: t) = l ++ '\n' :: joinNl (m :: t) := rfl
    have hrec := splitNl_joinNl (m :: t) (by simp) (fun x hx => h x (List.mem_cons_of_mem _ hx))
    rw [hj, splitNl_append_nl l _ (h l (by simp)), hrec]

/-- Helper: `joinNl` after appending a final blank line appends a newline. -/
theorem joinNl_concat_blank : ∀ ls : List Str, ls ≠ [] →
    joinNl (ls ++ [[]]) = joinNl ls ++ ['\n']
  | [] => by simp
  | [l] => fun _ => rfl
  | l :: m :: t => fun _ => by
    have h1 : joinNl ((l :: m :: t) ++ [[]]) = l ++ '\n' :: joinNl ((m :: t) ++ [[]]) := rfl
    have h2 : joinNl (l :: m :: t) = l ++ '\n' :: joinNl (m :: t) := rfl
    rw [h1, h2, joinNl_concat_blank (m :: t) (by simp)]
    simp

/-- Helper: the head of a joined non-empty first line. -/
theorem joinNl_head : ∀ (l : Str) (ls : List Str), l ≠ [] →
    (joinNl (l :: ls)).head? = l.head? := by
  intro l ls hl
  cases ls with
  | nil => rfl
  | cons m t =>
    have hj : joinNl (l :: m :: t) = l ++ '\n' :: joinNl (m :: t) := rfl
    rw [hj]
    obtain ⟨c, l', rfl⟩ := List.exists_cons_of_ne_nil hl
    rfl

/-- Helper: the last character of a joined line list whose last line is
non-empty. -/
theorem joinNl_getLast : ∀ (ls : List Str) (lst : Str), ls.getLast? = some lst →
    lst ≠ [] → joinNl ls ≠ [] ∧ (joinNl ls).getLast? = lst.getLast?
  | [] => by simp
  | [l] => fun lst hl hne => by
    simp only [List.getLast?_singleton, Option.some.injEq] at hl
    subst hl
    exact ⟨hne, rfl⟩
  | l :: m :: t => fun lst hl hne => by
    rw [List.getLast?_cons_cons] at hl
    obtain ⟨hjne, hjl⟩ := joinNl_getLast (m :: t) lst hl hne
    have hj : joinNl (l :: m :: t) = l ++ '\n' :: joinNl (m :: t) := rfl
    constructor
    · rw [hj]; simp
    · rw [hj, List.getLast?_append_cons]
      obtain ⟨j, t', hjt⟩ := List.exists_cons_of_ne_nil hjne
      rw [hjt, List.getLast?_cons_cons, ← hjt, hjl]

/-- Helper: a string with a non-whitespace first character is
left-strip-invariant. -/
theorem stripL_id (s : Str) (h : ∀ x ∈ s.head?, isPyWs x = false) : stripL s = s := by
  cases s with
  | nil => rfl
  | cons c t =>
    have hc := h c rfl
    rw [stripL, List.dropWhile_cons, hc]
    rfl

/-- Helper: a string with a non-whitespace last character is
right-strip-invariant. -/
theorem stripR_id (s : Str) (h : ∀ x ∈ s.getLast?, isPyWs x = false) : stripR s = s := by
  rw [stripR]
  cases hr : s.reverse with
  | nil =>
    rw [List.reverse_eq_nil_iff.mp hr]
    rfl
  | cons c t =>
    have hlast : s.getLast? = some c := by
      have hg := List.getLast?_reverse s.reverse
      rw [List.reverse_reverse] at hg
      rw [hg, hr]
      rfl
    have hc := h c hlast
    rw [List.dropWhile_cons, hc]
    simp only [Bool.false_eq_true, if_false]
    rw [← hr, List.reverse_reverse]

/-- Helper: a trailing newline is removed by the right strip. -/
theorem stripR_concat_nl (s : Str) : stripR (s ++ ['\n']) = stripR s := by
  rw [stripR, stripR, List.reverse_append]
  rfl

/-- Helper: `pyStrip` is the identity on strings with non-whitespace
ends. -/
theorem pyStrip_id_of (s : Str) (hh : ∀ x ∈ s.head?, isPyWs x = false)
    (hl : ∀ x ∈ s.getLast?, isPyWs x = false) : pyStrip s = s := by
  rw [pyStrip, stripL_id s hh, stripR_id s hl]

/-- Helper: `pyStrip` removes exactly a trailing newline from a string
with otherwise non-whitespace ends. -/
theorem pyStrip_concat_nl (s : Str) (hs : s ≠ [])
    (hh : ∀ x ∈ s.head?, isPyWs x = false)
    (hl : ∀ x ∈ s.getLast?, isPyWs x = false) : pyStrip (s ++ ['\n']) = s := by
  have hsl : stripL (s ++ ['\n']) = s ++ ['\n'] := by
    apply stripL_id
    intro x hx
    obtain ⟨c, t, rfl⟩ := List.exists_cons_of_ne_nil hs
    rw [List.cons_append] at hx
    exact hh x hx
  rw [pyStrip, hsl, stripR_concat_nl, stripR_id s hl]

/-- Helper: digit characters are not newlines. -/
theorem digit_ne_nl (c : Char) (h : isDigitC c = true) : ¬ c = '\n' := by
  intro hc
  subst hc
  exact absurd h (by decide)

/-- Helper: the unfolding of `renderLines` on a cons. -/
theorem renderLines_cons (i : ℕ) (e : SEntry) (es : List SEntry) :
    renderLines i (e :: es)
      = hdrLine i e :: enLine e ::
          ((if e.text_ko = [] then [] else [koLine e]) ++ [[]]
            ++ renderLines (i + 1) es) := rfl

/-- Helper: rendering a non-empty entry list yields lines. -/
theorem renderLines_ne_nil (i : ℕ) (e : SEntry) (es : List SEntry) :
    renderLines i (e :: es) ≠ [] := by
  rw [renderLines_cons]
  simp

/-- Helper: header lines contain no newline. -/
theorem hdrLine_nl_free (i : ℕ) (e : SEntry) : '\n' ∉ hdrLine i e := by
  intro hm
  rw [hdrLine] at hm
  rcases List.mem_cons.mp hm with h | hm
  · exact absurd h (by decide)
  rcases List.mem_append.mp hm with h | hm
  · exact digit_ne_nl '\n' ((natToDigits_spec i).1 _ h) rfl
  rcases List.mem_cons.mp hm with h | hm
  · exact absurd h (by decide)
  rcases List.mem_cons.mp hm with h | hm
  · exact absurd h (by decide)
  rcases List.mem_cons.mp hm with h | hm
  · exact absurd h (by decide)
  rcases List.mem_append.mp hm with hm2 | hm
  · rcases List.mem_append.mp hm2 with h | h
    · exact (fmt2_mem_ne e.t0 _ h).2.2.2 rfl
    · rcases List.mem_cons.mp h with h | h
      · exact absurd h (by decide)
      · exact (fmt2_mem_ne e.t1 _ h).2.2.2 rfl
  · rcases List.mem_cons.mp hm with h | hm
    · exact absurd h (by decide)
    · rw [List.mem_singleton] at hm
      exact absurd hm (by decide)

/-- Helper: `EN:` lines contain no newline when the text does not. -/
theorem enLine_nl_free (e : SEntry) (h : '\n' ∉ e.text_en) : '\n' ∉ enLine e := by
  intro hm
  rw [enLine] at hm
  rcases List.mem_cons.mp hm with h1 | hm
  · exact absurd h1 (by decide)
  rcases List.mem_cons.mp hm with h1 | hm
  · exact absurd h1 (by decide)
  rcases List.mem_cons.mp hm with h1 | hm
  · exact absurd h1 (by decide)
  rcases List.mem_cons.mp hm with h1 | hm
  · exact absurd h1 (by decide)
  · exact h hm

/-- Helper: `KO:` lines contain no newline when the text does not. -/
theorem koLine_nl_free (e : SEntry) (h : '\n' ∉ e.text_ko) : '\n' ∉ koLine e := by
  intro hm
  rw [koLine] at hm
  rcases List.mem_cons.mp hm with h1 | hm
  · exact absurd h1 (by decide)
  rcases List.mem_cons.mp hm with h1 | hm
  · exact absurd h1 (by decide)
  rcases List.mem_cons.mp hm with h1 | hm
  · exact absurd h1 (by decide)
  rcases List.mem_cons.mp hm with h1 | hm
  · exact absurd h1 (by decide)
  · exact h hm

/-- Helper: no rendered line contains a newline, given newline-free entry
texts. -/
theorem renderLines_nl_free : ∀ (es : List SEntry) (i : ℕ),
    (∀ e ∈ es, '\n' ∉ e.text_en ∧ '\n' ∉ e.text_ko) →
    ∀ l ∈ renderLines i es, '\n' ∉ l := by
  intro es
  induction es with
  | nil => intro i _ l hl; simp [renderLines] at hl
  | cons e es ih =>
    intro i h l hl
    rw [renderLines_cons] at hl
    rcases List.mem_cons.mp hl with rfl | hl
    · exact hdrLine_nl_free i e
    rcases List.mem_cons.mp hl with rfl | hl
    · exact enLine_nl_free e (h e (by simp)).1
    rcases List.mem_append.mp hl with hl2 | hl
    · rcases List.mem_append.mp hl2 with hl3 | hl3
      · by_cases hko : e.text_ko = []
        · rw [if_pos hko] at hl3
          simp at hl3
        · rw [if_neg hko] at hl3
          rw [List.mem_singleton] at hl3
          subst hl3
          exact koLine_nl_free e (h e (by simp)).2
      · rw [List.mem_singleton] at hl3
        subst hl3
        simp
    · exact ih (i + 1) (fun x hx => h x (by simp [hx])) l hl

/-- Helper: the rendered line list of a non-empty entry list ends with the
blank separator. -/
theorem renderLines_getLast_blank : ∀ (es : List SEntry) (i : ℕ), es ≠ [] →
    (renderLines i es).getLast? = some [] := by
  intro es
  induction es with
  | nil => simp
  | cons e es ih =>
    intro i _
    cases hes : es with
    | nil =>
      by_cases hko : e.text_ko = [] <;>
        simp [renderLines_cons, hko, renderLines]
    | cons e2 es2 =>
      have hne : renderLines (i + 1) (e2 :: es2) ≠ [] := renderLines_ne_nil _ _ _
      rw [renderLines_cons]
      show ([hdrLine i e, enLine e]
          ++ (((if e.text_ko = [] then [] else [koLine e]) ++ [[]])
              ++ renderLines (i + 1) (e2 :: es2))).getLast? = some []
      rw [List.getLast?_append_of_ne_nil _
            (by intro hc; rcases List.append_eq_nil.mp hc with ⟨_, h2⟩; exact hne h2),
          List.getLast?_append_of_ne_nil _ hne]
      rw [← hes]
      exact ih (i + 1) (by rw [hes]; simp)

/-- Helper: the first rendered line survives `dropLast` as the head. -/
theorem renderLines_dropLast_head (i : ℕ) (e : SEntry) (es : List SEntry) :
    ((renderLines i (e :: es)).dropLast).head? = some (hdrLine i e) := by
  rw [renderLines_cons, List.dropLast_cons₂]
  rfl

/-- Helper: after dropping the trailing blank, the rendered lines end in
the last entry's `EN:` or `KO:` line, which is non-empty and ends in a
non-whitespace character. -/
theorem renderLines_dropLast_last :
    ∀ (es : List SEntry) (i : ℕ),
      (∀ e ∈ es, e.text_en ≠ [] ∧
        (∀ x ∈ e.text_en.getLast?, isPyWs x = false) ∧
        (∀ x ∈ e.text_ko.getLast?, isPyWs x = false)) →
      es ≠ [] →
      ∃ lst : Str, ((renderLines i es).dropLast).getLast? = some lst ∧ lst ≠ [] ∧
        (∀ x ∈ lst.getLast?, isPyWs x = false)
  | [], _ => by simp
  | [e], i => fun hgood _ => by
    obtain ⟨hen, henl, hkol⟩ := hgood e (by simp)
    by_cases hko : e.text_ko = []
    · refine ⟨enLine e, ?_, by rw [enLine]; simp, ?_⟩
      · rw [renderLines_cons, if_pos hko]
        rfl
      · intro x hx
        have hel : (enLine e).getLast? = e.text_en.getLast? := by
          show (['E', 'N', ':', ' '] ++ e.text_en).getLast? = _
          exact List.getLast?_append_of_ne_nil _ hen
        rw [hel] at hx
        exact henl x hx
    · refine ⟨koLine e, ?_, by rw [koLine]; simp, ?_⟩
      · rw [renderLines_cons, if_neg hko]
        rfl
      · intro x hx
        have hkl : (koLine e).getLast? = e.text_ko.getLast? := by
          show (['K', 'O', ':', ' '] ++ e.text_ko).getLast? = _
          exact List.getLast?_append_of_ne_nil _ hko
        rw [hkl] at hx
        exact hkol x hx
  | e :: e2 :: es2, i => fun hgood _ => by
    obtain ⟨lst, hl, hlne, hlws⟩ :=
      renderLines_dropLast_last (e2 :: es2) (i + 1)
        (fun x hx => hgood x (by simp [hx])) (by simp)
    refine ⟨lst, ?_, hlne, hlws⟩
    have hrlne : (renderLines (i + 1) (e2 :: es2)).dropLast ≠ [] := by
      intro hc
      rw [hc] at hl
      simp at hl
    obtain ⟨a, t, hat⟩ := List.exists_cons_of_ne_nil (renderLines_ne_nil (i + 1) e2 es2)
    have hd : (renderLines i (e :: e2 :: es2)).dropLast
        = (hdrLine i e :: enLine e :: ((if e.text_ko = [] then [] else [koLine e]) ++ [[]]))
          ++ (renderLines (i + 1) (e2 :: es2)).dropLast := by
      rw [renderLines_cons, hat]
      show ((hdrLine i e :: enLine e :: ((if e.text_ko = [] then [] else [koLine e]) ++ [[]]))
          ++ (a :: t)).dropLast = _
      rw [List.dropLast_append_cons]
    rw [hd, List.getLast?_append_of_ne_nil _ hrlne]
    exact hl

/-- Helper: `parseLines` runs stepwise. -/
theorem parseLines_cons_of (st st2 : PState) (l : Str) (L : List Str)
    (h : parseLine st l = some st2) : parseLines st (l :: L) = parseLines st2 L := by
  have h0 : parseLines st (l :: L)
      = (match parseLine st l with | some s2 => parseLines s2 L | none => none) := rfl
  rw [h0, h]

/-- Helper: a rendered header line parses into the `enline` mode with the
rounded times, when its number matches the expected index. -/
theorem parseLine_header (i : ℕ) (acc : List SEntry) (e : SEntry) :
    parseLine ⟨i, .header, acc⟩ (hdrLine i e)
      = some ⟨i, .enline (fmtVal e.t0) (fmtVal e.t1), acc⟩ := by
  have h0 : parseLine ⟨i, PMode.header, acc⟩ (hdrLine i e)
      = (match parseHeader (hdrLine i e) with
          | some (j, a, b) =>
            if j = i then some ⟨i, PMode.enline a b, acc⟩ else none
          | none => none) := rfl
  rw [h0, parseHeader_hdrLine]
  show (if i = i then some (⟨i, PMode.enline (fmtVal e.t0) (fmtVal e.t1), acc⟩ : PState)
      else none) = _
  rw [if_pos rfl]

/-- Helper: a rendered `EN:` line parses into the `afterEn` mode. -/
theorem parseLine_en (i : ℕ) (acc : List SEntry) (a b : ℚ) (e : SEntry) :
    parseLine ⟨i, .enline a b, acc⟩ (enLine e)
      = some ⟨i, .afterEn ⟨a, b, e.text_en, []⟩, acc⟩ := rfl

/-- Helper: a blank separator commits the entry under construction. -/
theorem parseLine_blank_afterEn (i : ℕ) (acc : List SEntry) (e2 : SEntry) :
    parseLine ⟨i, .afterEn e2, acc⟩ [] = some ⟨i + 1, .header, acc ++ [e2]⟩ := rfl

/-- Helper: a rendered `KO:` line parses into the `afterKo` mode. -/
theorem parseLine_ko (i : ℕ) (acc : List SEntry) (e2 : SEntry) (e : SEntry) :
    parseLine ⟨i, .afterEn e2, acc⟩ (koLine e)
      = some ⟨i, .afterKo ⟨e2.t0, e2.t1, e2.text_en, e.text_ko⟩, acc⟩ := rfl

/-- Helper: a blank separator commits the entry with target text. -/
theorem parseLine_blank_afterKo (i : ℕ) (acc : List SEntry) (e2 : SEntry) :
    parseLine ⟨i, .afterKo e2, acc⟩ [] = some ⟨i + 1, .header, acc ++ [e2]⟩ := rfl

/-- Helper: parsing one full rendered block (with its blank separator)
commits the rounded entry and advances the expected index. -/
theorem parseLines_block (i : ℕ) (acc : List SEntry) (e : SEntry) (rest : List Str) :
    parseLines ⟨i, .header, acc⟩
      ((hdrLine i e :: enLine e :: ((if e.text_ko = [] then [] else [koLine e]) ++ [[]]))
        ++ rest)
      = parseLines ⟨i + 1, .header, acc ++ [roundEntry e]⟩ rest := by
  have hre : roundEntry e = ⟨fmtVal e.t0, fmtVal e.t1, e.text_en, e.text_ko⟩ := rfl
  by_cases hko : e.text_ko = []
  · rw [if_pos hko]
    show parseLines ⟨i, .header, acc⟩
        (hdrLine i e :: enLine e :: [] :: rest) = _
    rw [parseLines_cons_of _ _ _ _ (parseLine_header i acc e),
        parseLines_cons_of _ _ _ _ (parseLine_en i acc _ _ e),
        parseLines_cons_of _ _ _ _ (parseLine_blank_afterEn i acc _),
        hre, hko]
  · rw [if_neg hko]
    show parseLines ⟨i, .header, acc⟩
        (hdrLine i e :: enLine e :: koLine e :: [] :: rest) = _
    rw [parseLines_cons_of _ _ _ _ (parseLine_header i acc e),
        parseLines_cons_of _ _ _ _ (parseLine_en i acc _ _ e),
        parseLines_cons_of _ _ _ _ (parseLine_ko i acc _ e),
        parseLines_cons_of _ _ _ _ (parseLine_blank_afterKo i acc _),
        hre]

/-- Helper: parsing the last rendered block (its blank separator stripped)
leaves an accepting state that finishes with the rounded entry. -/
theorem parseLines_lastBlock (i : ℕ) (acc : List SEntry) (e : SEntry) :
    ∃ stF : PState,
      parseLines ⟨i, .header, acc⟩
        (hdrLine i e :: enLine e :: (if e.text_ko = [] then [] else [koLine e]))
          = some stF ∧
      parseFinish stF = some (acc ++ [roundEntry e]) := by
  have hre : roundEntry e = ⟨fmtVal e.t0, fmtVal e.t1, e.text_en, e.text_ko⟩ := rfl
  by_cases hko : e.text_ko = []
  · refine ⟨⟨i, .afterEn ⟨fmtVal e.t0, fmtVal e.t1, e.text_en, []⟩, acc⟩, ?_, ?_⟩
    · rw [if_pos hko]
      rw [parseLines_cons_of _ _ _ _ (parseLine_header i acc e),
          parseLines_cons_of _ _ _ _ (parseLine_en i acc _ _ e)]
      rfl
    · show some (acc ++ [(⟨fmtVal e.t0, fmtVal e.t1, e.text_en, []⟩ : SEntry)]) = _
      rw [hre, hko]
  · refine ⟨⟨i, .afterKo ⟨fmtVal e.t0, fmtVal e.t1, e.text_en, e.text_ko⟩, acc⟩, ?_, ?_⟩
    · rw [if_neg hko]
      rw [parseLines_cons_of _ _ _ _ (parseLine_header i acc e),
          parseLines_cons_of _ _ _ _ (parseLine_en i acc _ _ e),
          parseLines_cons_of _ _ _ _ (parseLine_ko i acc _ e)]
      rfl
    · show some (acc ++ [(⟨fmtVal e.t0, fmtVal e.t1, e.text_en, e.text_ko⟩ : SEntry)]) = _
      rw [hre]

/-- Helper: parsing the rendered lines of a non-empty entry list (trailing
blank stripped) succeeds and finishes with the rounded entries appended to
the accumulator. -/
theorem parseLines_render :
    ∀ (es : List SEntry) (i : ℕ) (acc : List SEntry), es ≠ [] →
      ∃ stF : PState,
        parseLines ⟨i, .header, acc⟩ ((renderLines i es).dropLast) = some stF ∧
        parseFinish stF = some (acc ++ es.map roundEntry)
  | [], _, _ => by simp
  | [e], i, acc => fun _ => by
    have hd : (renderLines i [e]).dropLast
        = hdrLine i e :: enLine e :: (if e.text_ko = [] then [] else [koLine e]) := by
      by_cases hko : e.text_ko = []
      · rw [renderLines_cons, if_pos hko]
        rfl
      · rw [renderLines_cons, if_neg hko]
        rfl
    rw [hd]
    obtain ⟨stF, h1, h2⟩ := parseLines_lastBlock i acc e
    refine ⟨stF, h1, ?_⟩
    rw [h2]
    simp
  | e :: e2 :: es2, i, acc => fun _ => by
    obtain ⟨stF, h1, h2⟩ :=
      parseLines_render (e2 :: es2) (i + 1) (acc ++ [roundEntry e]) (by simp)
    obtain ⟨a, t, hat⟩ := List.exists_cons_of_ne_nil (renderLines_ne_nil (i + 1) e2 es2)
    have hd : (renderLines i (e :: e2 :: es2)).dropLast
        = (hdrLine i e :: enLine e :: ((if e.text_ko = [] then [] else [koLine e]) ++ [[]]))
          ++ (renderLines (i + 1) (e2 :: es2)).dropLast := by
      rw [renderLines_cons, hat]
      show ((hdrLine i e :: enLine e :: ((if e.text_ko = [] then [] else [koLine e]) ++ [[]]))
          ++ (a :: t)).dropLast = _
      rw [List.dropLast_append_cons]
    rw [hd, parseLines_block]
    refine ⟨stF, h1, ?_⟩
    rw [h2]
    simp

/-- Helper: the full render/re-parse round trip under the well-formedness
conditions on entry texts. -/
theorem to_txt_roundtrip (entries : List SEntry)
    (h : ∀ e ∈ entries,
      e.text_en ≠ [] ∧
      '\n' ∉ e.text_en ∧ '\n' ∉ e.text_ko ∧
      (∀ x ∈ e.text_en.getLast?, isPyWs x = false) ∧
      (∀ x ∈ e.text_ko.getLast?, isPyWs x = false)) :
    parseTranscript (to_txt entries) = some (entries.map roundEntry) := by
  cases entries with
  | nil => rfl
  | cons e0 es0 =>
    have hblank := renderLines_getLast_blank (e0 :: es0) 1 (by simp)
    have hdec : (renderLines 1 (e0 :: es0)).dropLast ++ [[]] = renderLines 1 (e0 :: es0) :=
      List.dropLast_append_getLast? [] hblank
    have hhead := renderLines_dropLast_head 1 e0 es0
    obtain ⟨lst, hlast, hlstne, hlstws⟩ :=
      renderLines_dropLast_last (e0 :: es0) 1
        (fun e he => ⟨(h e he).1, (h e he).2.2.2.1, (h e he).2.2.2.2⟩) (by simp)
    have hdne : (renderLines 1 (e0 :: es0)).dropLast ≠ [] := by
      intro hc
      rw [hc] at hhead
      simp at hhead
    obtain ⟨tail, htail⟩ : ∃ tail,
        (renderLines 1 (e0 :: es0)).dropLast = hdrLine 1 e0 :: tail := by
      cases hL : (renderLines 1 (e0 :: es0)).dropLast with
      | nil => exact absurd hL hdne
      | cons x xs =>
        rw [hL] at hhead
        simp only [List.head?_cons, Option.some.injEq] at hhead
        exact ⟨xs, by rw [hhead]⟩
    have hhne : hdrLine 1 e0 ≠ [] := by
      rw [hdrLine]
      simp
    have hJhead : (joinNl ((renderLines 1 (e0 :: es0)).dropLast)).head?
        = (hdrLine 1 e0).head? := by
      rw [htail]
      exact joinNl_head _ _ hhne
    obtain ⟨hJne, hJlast⟩ :=
      joinNl_getLast ((renderLines 1 (e0 :: es0)).dropLast) lst hlast hlstne
    have htxt : to_txt (e0 :: es0) = joinNl ((renderLines 1 (e0 :: es0)).dropLast) := by
      have hjoin : joinNl (renderLines 1 (e0 :: es0))
          = joinNl ((renderLines 1 (e0 :: es0)).dropLast) ++ ['\n'] := by
        conv_lhs => rw [← hdec]
        rw [joinNl_concat_blank _ hdne]
      rw [to_txt, hjoin]
      apply pyStrip_concat_nl _ hJne
      · intro x hx
        rw [hJhead] at hx
        have hb : (hdrLine 1 e0).head? = some '[' := rfl
        rw [hb, Option.mem_def, Option.some.injEq] at hx
        subst hx
        rfl
      · intro x hx
        rw [hJlast] at hx
        exact hlstws x hx
    have hnl : ∀ l ∈ (renderLines 1 (e0 :: es0)).dropLast, '\n' ∉ l := by
      intro l hl
      exact renderLines_nl_free (e0 :: es0) 1
        (fun e he => ⟨(h e he).2.1, (h e he).2.2.1⟩) l
        ((List.dropLast_sublist _).subset hl)
    obtain ⟨stF, hPL, hPF⟩ := parseLines_render (e0 :: es0) 1 [] (by simp)
    rw [htxt, parseTranscript, if_neg hJne, splitNl_joinNl _ hdne hnl, hPL]
    show parseFinish stF = _
    rw [hPF]
    simp

/-- Helper: the zero time renders as `0.00`. -/
theorem fmt2_zero : fmt2 0 = ['0', '.', '0', '0'] := by
  have h0 : (round (|(0 : ℚ)| * 100)).toNat = 0 := by norm_num
  rw [fmt2_eq, h0, if_neg (by norm_num : ¬ (0 : ℚ) < 0)]
  rfl

/-- Helper: header lines of entries with zero times, concretely. -/
theorem hdrLine_zeros (i : ℕ) (en ko : Str) :
    hdrLine i ⟨0, 0, en, ko⟩
      = '[' :: natToDigits i ++ ']' :: ' ' :: '(' ::
          (['0', '.', '0', '0'] ++ '–' :: ['0', '.', '0', '0'] ++ ['s', ')']) := by
  rw [hdrLine]
  show '[' :: natToDigits i ++ ']' :: ' ' :: '(' :: (fmt2 0 ++ '–' :: fmt2 0 ++ ['s', ')']) = _
  rw [fmt2_zero]

/-- Helper: two different entry lists render to the same transcript text —
a source text containing a blank line, a header line and an `EN:` line
renders exactly like two separate entries. -/
theorem to_txt_collision :
    to_txt [(⟨0, 0, ("a\n\n[2] (0.00–0.00s)\nEN: x").toList, []⟩ : SEntry)]
      = to_txt [(⟨0, 0, ['a'], []⟩ : SEntry), (⟨0, 0, ['x'], []⟩ : SEntry)] := by
  rw [to_txt, to_txt, renderLines_cons, renderLines_cons, renderLines_cons,
    hdrLine_zeros, hdrLine_zeros, hdrLine_zeros]
  decide

/-- C9 amended: rendering the transcript and re-parsing it recovers every
entry — start and end times up to the two-decimal render-time rounding,
source and target texts exactly — provided each entry's source text is
non-empty, its texts contain no newline, and its texts do not end in
whitespace (otherwise the newline-based line structure or the final
`strip()` makes the rendering ambiguous, see the counterexample). -/
theorem claim_C9_amended (entries : List SEntry)
    (h : ∀ e ∈ entries,
      e.text_en ≠ [] ∧
      '\n' ∉ e.text_en ∧ '\n' ∉ e.text_ko ∧
      (∀ x ∈ e.text_en.getLast?, isPyWs x = false) ∧
      (∀ x ∈ e.text_ko.getLast?, isPyWs x = false)) :
    parseTranscript (to_txt entries) = some (entries.map roundEntry) :=
  to_txt_roundtrip entries h

/-- Witness for the amended C9 at one concrete entry. -/
theorem claim_C9_amended_witness :
    parseTranscript (to_txt [(⟨0, 1, ['h', 'i'], ['y', 'o']⟩ : SEntry)])
      = some ([(⟨0, 1, ['h', 'i'], ['y', 'o']⟩ : SEntry)].map roundEntry) :=
  claim_C9_amended [⟨0, 1, ['h', 'i'], ['y', 'o']⟩] (by decide)

/-- Counterexample to C9: for the one-entry list whose source text
contains a blank line, a header line and an `EN:` line, rendering is not
injective (it collides with a two-entry list), so re-parsing cannot — and
does not — recover the original entry. -/
theorem claim_C9_counterexample :
    parseTranscript (to_txt [(⟨0, 0, ("a\n\n[2] (0.00–0.00s)\nEN: x").toList, []⟩ : SEntry)])
      ≠ some ([(⟨0, 0, ("a\n\n[2] (0.00–0.00s)\nEN: x").toList, []⟩ : SEntry)].map roundEntry) := by
  intro hcontra
  have h2 := to_txt_roundtrip [(⟨0, 0, ['a'], []⟩ : SEntry), (⟨0, 0, ['x'], []⟩ : SEntry)]
    (by decide)
  rw [to_txt_collision, h2] at hcontra
  simp only [Option.some.injEq] at hcontra
  have hlen := congrArg List.length hcontra
  simp at hlen
